import Mathlib

/-
  Verification of the local-variable optimization core (liveness, coalescing,
  copy propagation, redundant-set elimination) of the binaryen fork.

  The C++ sources are shallowly embedded as executable Lean definitions:
  pure functions become Lean functions, stateful loops become folds or
  explicit state passing, machine integers become Nat with explicit `% 256`
  where the source uses uint8_t, and iteration over the CFG worklist becomes
  a step relation.
-/

namespace Wasm

/-! ## support/sorted_vector.h

`SortedVector` keeps a sorted vector of elements (here: local indexes, i.e.
naturals).  `merge` is the linear two-pointer union merge, `insert`/`erase`/
`has` are the `std::lower_bound` based operations, rendered recursively: the
recursion skips the prefix of elements `< x`, exactly as `lower_bound` does
on a sorted vector. -/

namespace SortedVector

/-- Embedding of `SortedVector::merge`: two-pointer merge that keeps a single
copy of elements present in both inputs. -/
def merge : List Nat → List Nat → List Nat
  | [], ys => ys
  | x :: xs, [] => x :: xs
  | x :: xs, y :: ys =>
    if x < y then x :: merge xs (y :: ys)
    else if y < x then y :: merge (x :: xs) ys
    else x :: merge xs ys
termination_by xs ys => xs.length + ys.length

/-- Embedding of `SortedVector::insert` (`std::lower_bound`, then insert the
element unless it is already present). -/
def insert (x : Nat) : List Nat → List Nat
  | [] => [x]
  | y :: ys =>
    if y < x then y :: insert x ys
    else if x < y then x :: y :: ys
    else y :: ys

/-- Embedding of `SortedVector::erase` (`std::lower_bound`, then remove the
element if present). -/
def erase (x : Nat) : List Nat → List Nat
  | [] => []
  | y :: ys =>
    if y < x then y :: erase x ys
    else if y = x then ys
    else y :: ys

/-- Embedding of `SortedVector::has` (`std::lower_bound`, then compare). -/
def has (x : Nat) : List Nat → Bool
  | [] => false
  | y :: ys => if y < x then has x ys else y == x

theorem mem_merge {a : Nat} : ∀ {s t : List Nat},
    a ∈ merge s t ↔ a ∈ s ∨ a ∈ t
  | [], t => by simp [merge]
  | x :: xs, [] => by simp [merge]
  | x :: xs, y :: ys => by
    by_cases h1 : x < y
    · rw [merge, if_pos h1]
      simp only [List.mem_cons, mem_merge (s := xs) (t := y :: ys), List.mem_cons]
      tauto
    · by_cases h2 : y < x
      · rw [merge, if_neg h1, if_pos h2]
        simp only [List.mem_cons, mem_merge (s := x :: xs) (t := ys), List.mem_cons]
        tauto
      · have hxy : x = y := Nat.le_antisymm (Nat.le_of_not_lt h2) (Nat.le_of_not_lt h1)
        rw [merge, if_neg h1, if_neg h2]
        simp only [List.mem_cons, mem_merge (s := xs) (t := ys)]
        subst hxy
        tauto
termination_by s t => s.length + t.length

theorem sorted_merge : ∀ {s t : List Nat},
    List.Pairwise (· < ·) s → List.Pairwise (· < ·) t →
    List.Pairwise (· < ·) (merge s t)
  | [], t, _, ht => by simpa [merge] using ht
  | x :: xs, [], hs, _ => by simpa [merge] using hs
  | x :: xs, y :: ys, hs, ht => by
    rw [List.pairwise_cons] at hs ht
    by_cases h1 : x < y
    · rw [merge, if_pos h1]
      refine List.pairwise_cons.2 ⟨?_, sorted_merge hs.2 (List.pairwise_cons.2 ht)⟩
      intro b hb
      rcases mem_merge.1 hb with hb | hb
      · exact hs.1 b hb
      · rcases List.mem_cons.1 hb with rfl | hb
        · exact h1
        · exact Nat.lt_trans h1 (ht.1 b hb)
    · by_cases h2 : y < x
      · rw [merge, if_neg h1, if_pos h2]
        refine List.pairwise_cons.2 ⟨?_, sorted_merge (List.pairwise_cons.2 hs) ht.2⟩
        intro b hb
        rcases mem_merge.1 hb with hb | hb
        · rcases List.mem_cons.1 hb with rfl | hb
          · exact h2
          · exact Nat.lt_trans h2 (hs.1 b hb)
        · exact ht.1 b hb
      · have hxy : x = y := Nat.le_antisymm (Nat.le_of_not_lt h2) (Nat.le_of_not_lt h1)
        rw [merge, if_neg h1, if_neg h2]
        refine List.pairwise_cons.2 ⟨?_, sorted_merge hs.2 ht.2⟩
        intro b hb
        rcases mem_merge.1 hb with hb | hb
        · exact hs.1 b hb
        · exact hxy ▸ ht.1 b hb
termination_by s t => s.length + t.length

theorem mem_insert {a x : Nat} : ∀ {s : List Nat},
    a ∈ insert x s ↔ a = x ∨ a ∈ s
  | [] => by simp [insert]
  | y :: ys => by
    by_cases h1 : y < x
    · rw [insert, if_pos h1]
      simp only [List.mem_cons, mem_insert (s := ys)]
      tauto
    · by_cases h2 : x < y
      · rw [insert, if_neg h1, if_pos h2]
        simp only [List.mem_cons]
      · have hxy : x = y := Nat.le_antisymm (Nat.le_of_not_lt h1) (Nat.le_of_not_lt h2)
        rw [insert, if_neg h1, if_neg h2]
        simp only [List.mem_cons]
        subst hxy
        tauto

theorem sorted_insert {x : Nat} : ∀ {s : List Nat},
    List.Pairwise (· < ·) s → List.Pairwise (· < ·) (insert x s)
  | [], _ => by simp [insert]
  | y :: ys, hs => by
    rw [List.pairwise_cons] at hs
    by_cases h1 : y < x
    · rw [insert, if_pos h1]
      refine List.pairwise_cons.2 ⟨?_, sorted_insert hs.2⟩
      intro b hb
      rcases mem_insert.1 hb with rfl | hb
      · exact h1
      · exact hs.1 b hb
    · by_cases h2 : x < y
      · rw [insert, if_neg h1, if_pos h2]
        refine List.pairwise_cons.2 ⟨?_, List.pairwise_cons.2 hs⟩
        intro b hb
        rcases List.mem_cons.1 hb with rfl | hb
        · exact h2
        · exact Nat.lt_trans h2 (hs.1 b hb)
      · rw [insert, if_neg h1, if_neg h2]
        exact List.pairwise_cons.2 hs

theorem erase_sublist {x : Nat} : ∀ s : List Nat, List.Sublist (erase x s) s
  | [] => by simp [erase]
  | y :: ys => by
    by_cases h1 : y < x
    · rw [erase, if_pos h1]
      exact List.Sublist.cons₂ y (erase_sublist ys)
    · by_cases h2 : y = x
      · rw [erase, if_neg h1, if_pos h2]
        exact List.sublist_cons_self y ys
      · rw [erase, if_neg h1, if_neg h2]

theorem sorted_erase {x : Nat} {s : List Nat}
    (hs : List.Pairwise (· < ·) s) : List.Pairwise (· < ·) (erase x s) :=
  List.Pairwise.sublist (erase_sublist s) hs

theorem mem_erase {a x : Nat} : ∀ {s : List Nat},
    List.Pairwise (· < ·) s → (a ∈ erase x s ↔ a ∈ s ∧ a ≠ x)
  | [], _ => by simp [erase]
  | y :: ys, hs => by
    rw [List.pairwise_cons] at hs
    by_cases h1 : y < x
    · rw [erase, if_pos h1]
      simp only [List.mem_cons, mem_erase hs.2]
      constructor
      · rintro (rfl | ⟨hb, hne⟩)
        · exact ⟨Or.inl rfl, Nat.ne_of_lt h1⟩
        · exact ⟨Or.inr hb, hne⟩
      · rintro ⟨rfl | hb, hne⟩
        · exact Or.inl rfl
        · exact Or.inr ⟨hb, hne⟩
    · by_cases h2 : y = x
      · subst h2
        rw [erase, if_neg h1, if_pos rfl]
        simp only [List.mem_cons]
        constructor
        · intro hb
          exact ⟨Or.inr hb, Nat.ne_of_gt (hs.1 a hb)⟩
        · rintro ⟨rfl | hb, hne⟩
          · exact absurd rfl hne
          · exact hb
      · rw [erase, if_neg h1, if_neg h2]
        simp only [List.mem_cons]
        constructor
        · rintro (rfl | hb)
          · exact ⟨Or.inl rfl, h2⟩
          · refine ⟨Or.inr hb, ?_⟩
            have hyx : x < y := by
              rcases Nat.lt_or_ge x y with h | h
              · exact h
              · exact absurd (Nat.lt_of_le_of_ne h h2) h1
            exact Nat.ne_of_gt (Nat.lt_trans hyx (hs.1 a hb))
        · rintro ⟨hb, _⟩
          exact hb

/-- A strictly sorted list whose elements all occur in another strictly
sorted list is a sublist of it. -/
theorem sublist_of_subset : ∀ {s t : List Nat},
    List.Pairwise (· < ·) s → List.Pairwise (· < ·) t →
    (∀ a ∈ s, a ∈ t) → List.Sublist s t
  | [], t, _, _, _ => List.nil_sublist t
  | x :: xs, [], _, _, hsub => absurd (hsub x (List.mem_cons_self x xs)) (List.not_mem_nil x)
  | x :: xs, y :: ys, hs, ht, hsub => by
    rw [List.pairwise_cons] at hs ht
    rcases List.mem_cons.1 (hsub x (List.mem_cons_self x xs)) with rfl | hx
    · refine List.Sublist.cons₂ x (sublist_of_subset hs.2 ht.2 ?_)
      intro a ha
      rcases List.mem_cons.1 (hsub a (List.mem_cons_of_mem x ha)) with rfl | h
      · exact absurd (hs.1 a ha) (Nat.lt_irrefl a)
      · exact h
    · refine List.Sublist.cons y (sublist_of_subset (List.pairwise_cons.2 hs) ht.2 ?_)
      intro a ha
      rcases List.mem_cons.1 (hsub a ha) with rfl | h
      · exact absurd (ht.1 x hx) (by
          rcases List.mem_cons.1 ha with rfl | ha2
          · exact Nat.lt_irrefl a
          · exact Nat.lt_asymm (hs.1 a ha2))
      · exact h

/-- Two strictly sorted lists with the same elements are equal: set equality
coincides with representation equality. -/
theorem eq_of_mem_iff {s t : List Nat}
    (hs : List.Pairwise (· < ·) s) (ht : List.Pairwise (· < ·) t)
    (h : ∀ a, a ∈ s ↔ a ∈ t) : s = t :=
  (sublist_of_subset hs ht (fun a ha => (h a).1 ha)).antisymm
    (sublist_of_subset ht hs (fun a ha => (h a).2 ha))

/-- Strictly sorted subset implies length-`≤`; used for the liveness size
monotonicity argument. -/
theorem length_le_of_subset {s t : List Nat}
    (hs : List.Pairwise (· < ·) s) (ht : List.Pairwise (· < ·) t)
    (hsub : ∀ a ∈ s, a ∈ t) : s.length ≤ t.length :=
  (sublist_of_subset hs ht hsub).length_le

/-- Strictly sorted strict subset implies length-`<`. -/
theorem length_lt_of_ssubset {s t : List Nat}
    (hs : List.Pairwise (· < ·) s) (ht : List.Pairwise (· < ·) t)
    (hsub : ∀ a ∈ s, a ∈ t) (hne : s ≠ t) : s.length < t.length := by
  have hsl := sublist_of_subset hs ht hsub
  rcases Nat.lt_or_ge s.length t.length with h | h
  · exact h
  · exact absurd (hsl.eq_of_length (Nat.le_antisymm hsl.length_le h)) hne

end SortedVector

/-! ## cfg/liveness-traversal.h — index liveness (backward dataflow)

`LivenessWalker::flowIndexLiveness` iterates a backward dataflow on the live
basic blocks.  Per-block state is a pair of strictly sorted index sets
(`startIndexes`, `endIndexes`, both `SortedVector`s).  A popped block `B`
recomputes `endIndexes(B)` as the merge of its successors' `startIndexes`
and rescans its actions backward; the source asserts strict size growth at
both update points.  The model processes an arbitrary block of the CFG at
each step, which covers every possible worklist pop order of the
`std::set<BasicBlock*>` queue. -/

/-- Liveness-relevant action of a basic block (`CFG::LivenessAction`):
a get, a set, or a neutral placeholder. -/
inductive LAct where
  | get (index : Nat)
  | set (index : Nat)
  | other
deriving DecidableEq, Repr

/-- Embedding of `scanLivenessThroughActions`: walk the actions from the back
towards the front, inserting the index of each get and erasing the index of
each set. -/
def scanLivenessThroughActions (actions : List LAct) (live : List Nat) : List Nat :=
  actions.foldr
    (fun a live =>
      match a with
      | .get i => SortedVector.insert i live
      | .set i => SortedVector.erase i live
      | .other => live)
    live

/-- The CFG seen by the liveness engine: the list of live blocks (dead-block
edges are already unlinked by `unlinkDeadBlocks`), the successor lists, and
the per-block action lists. -/
structure LCfg where
  blocks : List Nat
  out : Nat → List Nat
  actions : Nat → List LAct

/-- The mutable dataflow state of `flowIndexLiveness`: for each block its
current `startIndexes` and `endIndexes`. -/
structure LState where
  startI : Nat → List Nat
  endI : Nat → List Nat

/-- Embedding of `mergeStartsAndCheckChange`'s merge part: the merge of the
successors' `startIndexes`, first successor seeding the accumulator. -/
def mergeStarts (s : LState) (succs : List Nat) : List Nat :=
  match succs with
  | [] => []
  | b :: bs => bs.foldl (fun ret c => SortedVector.merge ret (s.startI c)) (s.startI b)

/-- Embedding of one iteration of the `flowIndexLiveness` work loop on a
popped block `b`: if the merged successor starts changed, update
`endIndexes(b)`, rescan the actions, and update `startIndexes(b)` if it
changed.  (The queue insertions of predecessors only determine which block
is popped next and are covered by letting any block be processed.) -/
def processBlock (cfg : LCfg) (s : LState) (b : Nat) : LState :=
  if cfg.out b = [] then s
  else
    let live := mergeStarts s (cfg.out b)
    if live = s.endI b then s
    else
      let s1 : LState := ⟨s.startI, Function.update s.endI b live⟩
      let live2 := scanLivenessThroughActions (cfg.actions b) live
      if live2 = s1.startI b then s1
      else ⟨Function.update s1.startI b live2, s1.endI⟩

/-- Embedding of the initialization before the work loop: every live block
starts with empty `endIndexes` and with `startIndexes` obtained by a first
backward scan from the empty set. -/
def initLState (cfg : LCfg) : LState :=
  ⟨fun b => if b ∈ cfg.blocks then scanLivenessThroughActions (cfg.actions b) [] else [],
   fun _ => []⟩

/-- States reachable by the `flowIndexLiveness` fixpoint iteration: the
initial state followed by any number of block-processing steps. -/
inductive LReaches (cfg : LCfg) : LState → Prop where
  | init : LReaches cfg (initLState cfg)
  | step : ∀ s b, LReaches cfg s → b ∈ cfg.blocks → LReaches cfg (processBlock cfg s b)

/-- Successor lists of live blocks only name live blocks
(`unlinkDeadBlocks` has run). -/
def LWfCfg (cfg : LCfg) : Prop :=
  ∀ b ∈ cfg.blocks, ∀ c ∈ cfg.out b, c ∈ cfg.blocks

theorem scan_cons (a : LAct) (acts : List LAct) (live : List Nat) :
    scanLivenessThroughActions (a :: acts) live =
      match a with
      | .get i => SortedVector.insert i (scanLivenessThroughActions acts live)
      | .set i => SortedVector.erase i (scanLivenessThroughActions acts live)
      | .other => scanLivenessThroughActions acts live := rfl

theorem scan_sorted {acts : List LAct} {live : List Nat}
    (h : List.Pairwise (· < ·) live) :
    List.Pairwise (· < ·) (scanLivenessThroughActions acts live) := by
  induction acts with
  | nil => exact h
  | cons a acts ih =>
    cases a with
    | get i => simpa only [scan_cons] using SortedVector.sorted_insert ih
    | set i => simpa only [scan_cons] using SortedVector.sorted_erase ih
    | other => simpa only [scan_cons] using ih

theorem scan_mono {acts : List LAct} {l1 l2 : List Nat}
    (h1 : List.Pairwise (· < ·) l1) (h2 : List.Pairwise (· < ·) l2)
    (hsub : ∀ x ∈ l1, x ∈ l2) :
    ∀ x ∈ scanLivenessThroughActions acts l1, x ∈ scanLivenessThroughActions acts l2 := by
  induction acts with
  | nil => exact hsub
  | cons a acts ih =>
    have s1 : List.Pairwise (· < ·) (scanLivenessThroughActions acts l1) := scan_sorted h1
    have s2 : List.Pairwise (· < ·) (scanLivenessThroughActions acts l2) := scan_sorted h2
    cases a with
    | get i =>
      intro x hx
      simp only [scan_cons] at hx ⊢
      rcases SortedVector.mem_insert.1 hx with rfl | hx
      · exact SortedVector.mem_insert.2 (Or.inl rfl)
      · exact SortedVector.mem_insert.2 (Or.inr (ih x hx))
    | set i =>
      intro x hx
      simp only [scan_cons] at hx ⊢
      rcases (SortedVector.mem_erase s1).1 hx with ⟨hx, hne⟩
      exact (SortedVector.mem_erase s2).2 ⟨ih x hx, hne⟩
    | other =>
      intro x hx
      simp only [scan_cons] at hx ⊢
      exact ih x hx

theorem mem_foldl_merge (f : Nat → List Nat) (x : Nat) : ∀ (bs : List Nat) (acc : List Nat),
    x ∈ bs.foldl (fun ret c => SortedVector.merge ret (f c)) acc ↔
      x ∈ acc ∨ ∃ c ∈ bs, x ∈ f c
  | [], acc => by simp
  | b :: bs, acc => by
    rw [List.foldl_cons, mem_foldl_merge f x bs]
    simp only [SortedVector.mem_merge, List.mem_cons]
    constructor
    · rintro ((h | h) | ⟨c, hc, hx⟩)
      · exact Or.inl h
      · exact Or.inr ⟨b, Or.inl rfl, h⟩
      · exact Or.inr ⟨c, Or.inr hc, hx⟩
    · rintro (h | ⟨c, rfl | hc, hx⟩)
      · exact Or.inl (Or.inl h)
      · exact Or.inl (Or.inr hx)
      · exact Or.inr ⟨c, hc, hx⟩

theorem sorted_foldl_merge (f : Nat → List Nat) : ∀ (bs : List Nat) (acc : List Nat),
    List.Pairwise (· < ·) acc → (∀ c ∈ bs, List.Pairwise (· < ·) (f c)) →
    List.Pairwise (· < ·) (bs.foldl (fun ret c => SortedVector.merge ret (f c)) acc)
  | [], acc, hacc, _ => hacc
  | b :: bs, acc, hacc, hf => by
    rw [List.foldl_cons]
    exact sorted_foldl_merge f bs _
      (SortedVector.sorted_merge hacc (hf b (List.mem_cons_self b bs)))
      (fun c hc => hf c (List.mem_cons_of_mem b hc))

theorem mem_mergeStarts {s : LState} {succs : List Nat} {x : Nat} :
    x ∈ mergeStarts s succs ↔ ∃ c ∈ succs, x ∈ s.startI c := by
  cases succs with
  | nil => simp [mergeStarts]
  | cons b bs =>
    rw [mergeStarts, mem_foldl_merge]
    simp only [List.mem_cons]
    constructor
    · rintro (h | ⟨c, hc, hx⟩)
      · exact ⟨b, Or.inl rfl, h⟩
      · exact ⟨c, Or.inr hc, hx⟩
    · rintro ⟨c, rfl | hc, hx⟩
      · exact Or.inl hx
      · exact Or.inr ⟨c, hc, hx⟩

theorem sorted_mergeStarts {s : LState} {succs : List Nat}
    (h : ∀ c ∈ succs, List.Pairwise (· < ·) (s.startI c)) :
    List.Pairwise (· < ·) (mergeStarts s succs) := by
  cases succs with
  | nil => simp [mergeStarts]
  | cons b bs =>
    exact sorted_foldl_merge _ bs _ (h b (List.mem_cons_self b bs))
      (fun c hc => h c (List.mem_cons_of_mem b hc))

/-- The inductive invariant of the backward index-liveness dataflow: per live
block, both sets are strictly sorted, `startIndexes` is the backward scan of
`endIndexes`, and every index live at the end is live at the start of some
successor. -/
def LInv (cfg : LCfg) (s : LState) : Prop :=
  ∀ b ∈ cfg.blocks,
    List.Pairwise (· < ·) (s.startI b) ∧
    List.Pairwise (· < ·) (s.endI b) ∧
    s.startI b = scanLivenessThroughActions (cfg.actions b) (s.endI b) ∧
    ∀ x ∈ s.endI b, ∃ c ∈ cfg.out b, x ∈ s.startI c

theorem linv_init (cfg : LCfg) : LInv cfg (initLState cfg) := by
  intro b hb
  refine ⟨?_, ?_, ?_, ?_⟩
  · simp only [initLState, if_pos hb]
    exact scan_sorted List.Pairwise.nil
  · exact List.Pairwise.nil
  · simp only [initLState, if_pos hb]
  · intro x hx
    exact absurd hx (List.not_mem_nil x)

theorem update_mem_of_mem {f : Nat → List Nat} {b : Nat} {v : List Nat}
    (hsub : ∀ x ∈ f b, x ∈ v) : ∀ c, ∀ x ∈ f c, x ∈ Function.update f b v c := by
  intro c x hx
  by_cases hcb : c = b
  · subst hcb
    rw [Function.update_same]
    exact hsub x hx
  · rw [Function.update_noteq hcb]
    exact hx

theorem linv_processBlock (cfg : LCfg) (hwf : LWfCfg cfg) (s : LState)
    (hinv : LInv cfg s) (b : Nat) (hb : b ∈ cfg.blocks) :
    LInv cfg (processBlock cfg s b) ∧
    (∀ c, ∀ x ∈ s.startI c, x ∈ (processBlock cfg s b).startI c) ∧
    (∀ c, ∀ x ∈ s.endI c, x ∈ (processBlock cfg s b).endI c) := by
  rw [processBlock]
  by_cases hout : cfg.out b = []
  · rw [if_pos hout]
    exact ⟨hinv, fun c x hx => hx, fun c x hx => hx⟩
  rw [if_neg hout]
  set live := mergeStarts s (cfg.out b) with hlive
  have hsortedlive : List.Pairwise (· < ·) live :=
    sorted_mergeStarts (fun c hc => (hinv c (hwf b hb c hc)).1)
  have hendsub : ∀ x ∈ s.endI b, x ∈ live := by
    intro x hx
    rcases (hinv b hb).2.2.2 x hx with ⟨c, hc, hxc⟩
    exact mem_mergeStarts.2 ⟨c, hc, hxc⟩
  by_cases hch : live = s.endI b
  · rw [if_pos hch]
    exact ⟨hinv, fun c x hx => hx, fun c x hx => hx⟩
  rw [if_neg hch]
  set live2 := scanLivenessThroughActions (cfg.actions b) live with hlive2
  have hstartsub : ∀ x ∈ s.startI b, x ∈ live2 := by
    intro x hx
    rw [(hinv b hb).2.2.1] at hx
    exact scan_mono (hinv b hb).2.1 hsortedlive hendsub x hx
  by_cases hch2 : live2 = s.startI b
  · rw [if_pos hch2]
    refine ⟨?_, fun c x hx => hx, fun c => update_mem_of_mem hendsub c⟩
    intro c hc
    dsimp only
    by_cases hcb : c = b
    · subst hcb
      refine ⟨(hinv c hc).1, ?_, ?_, ?_⟩
      · rw [Function.update_same]
        exact hsortedlive
      · rw [Function.update_same]
        exact hch2.symm
      · intro x hx
        rw [Function.update_same] at hx
        exact mem_mergeStarts.1 hx
    · refine ⟨(hinv c hc).1, ?_, ?_, ?_⟩
      · rw [Function.update_noteq hcb]
        exact (hinv c hc).2.1
      · rw [Function.update_noteq hcb]
        exact (hinv c hc).2.2.1
      · intro x hx
        rw [Function.update_noteq hcb] at hx
        exact (hinv c hc).2.2.2 x hx
  rw [if_neg hch2]
  have hnewstart : ∀ c, ∀ x ∈ s.startI c, x ∈ Function.update s.startI b live2 c :=
    update_mem_of_mem hstartsub
  refine ⟨?_, hnewstart, fun c => update_mem_of_mem hendsub c⟩
  intro c hc
  dsimp only
  by_cases hcb : c = b
  · subst hcb
    refine ⟨?_, ?_, ?_, ?_⟩
    · rw [Function.update_same]
      exact scan_sorted hsortedlive
    · rw [Function.update_same]
      exact hsortedlive
    · rw [Function.update_same, Function.update_same]
    · intro x hx
      rw [Function.update_same] at hx
      rcases mem_mergeStarts.1 hx with ⟨d, hd, hxd⟩
      exact ⟨d, hd, hnewstart d x hxd⟩
  · refine ⟨?_, ?_, ?_, ?_⟩
    · rw [Function.update_noteq hcb]
      exact (hinv c hc).1
    · rw [Function.update_noteq hcb]
      exact (hinv c hc).2.1
    · rw [Function.update_noteq hcb, Function.update_noteq hcb]
      exact (hinv c hc).2.2.1
    · intro x hx
      rw [Function.update_noteq hcb] at hx
      rcases (hinv c hc).2.2.2 x hx with ⟨d, hd, hxd⟩
      exact ⟨d, hd, hnewstart d x hxd⟩

theorem linv_reaches (cfg : LCfg) (hwf : LWfCfg cfg) {s : LState}
    (hr : LReaches cfg s) : LInv cfg s := by
  induction hr with
  | init => exact linv_init cfg
  | step s b _ hb ih => exact (linv_processBlock cfg hwf s ih b hb).1

/-- C4: throughout the backward index-liveness fixpoint iteration
(`flowIndexLiveness`), for every live block the sizes of `startIndexes` and
`endIndexes` never decrease under a processing step, and at each update that
changes one of the sets the changed set strictly grows, so the two
size-monotonicity assertions (`assert(curr->endIndexes.size() < live.size())`
and `assert(curr->startIndexes.size() < live.size())`) never fail. -/
theorem flowIndexLiveness_monotone (cfg : LCfg) (hwf : LWfCfg cfg)
    (s : LState) (hr : LReaches cfg s) (b : Nat) (hb : b ∈ cfg.blocks) :
    (∀ c ∈ cfg.blocks,
      (s.startI c).length ≤ ((processBlock cfg s b).startI c).length ∧
      (s.endI c).length ≤ ((processBlock cfg s b).endI c).length) ∧
    (cfg.out b ≠ [] →
      mergeStarts s (cfg.out b) ≠ s.endI b →
      (s.endI b).length < (mergeStarts s (cfg.out b)).length ∧
      (scanLivenessThroughActions (cfg.actions b) (mergeStarts s (cfg.out b)) ≠ s.startI b →
        (s.startI b).length <
          (scanLivenessThroughActions (cfg.actions b) (mergeStarts s (cfg.out b))).length)) := by
  have hinv := linv_reaches cfg hwf hr
  have hstep := linv_processBlock cfg hwf s hinv b hb
  have hsortedlive : List.Pairwise (· < ·) (mergeStarts s (cfg.out b)) :=
    sorted_mergeStarts (fun c hc => (hinv c (hwf b hb c hc)).1)
  have hendsub : ∀ x ∈ s.endI b, x ∈ mergeStarts s (cfg.out b) := by
    intro x hx
    rcases (hinv b hb).2.2.2 x hx with ⟨c, hc, hxc⟩
    exact mem_mergeStarts.2 ⟨c, hc, hxc⟩
  constructor
  · intro c hc
    constructor
    · exact SortedVector.length_le_of_subset (hinv c hc).1
        ((hstep.1 c hc).1) (hstep.2.1 c)
    · exact SortedVector.length_le_of_subset (hinv c hc).2.1
        ((hstep.1 c hc).2.1) (hstep.2.2 c)
  · intro _ hch
    refine ⟨SortedVector.length_lt_of_ssubset (hinv b hb).2.1 hsortedlive hendsub
      (fun h => hch h.symm), ?_⟩
    intro hch2
    have hstartsub : ∀ x ∈ s.startI b,
        x ∈ scanLivenessThroughActions (cfg.actions b) (mergeStarts s (cfg.out b)) := by
      intro x hx
      rw [(hinv b hb).2.2.1] at hx
      exact scan_mono (hinv b hb).2.1 hsortedlive hendsub x hx
    exact SortedVector.length_lt_of_ssubset (hinv b hb).1 (scan_sorted hsortedlive)
      hstartsub (fun h => hch2 h.symm)

/-- Concrete two-block CFG used to witness the liveness monotonicity
theorem. -/
def livenessWitnessCfg : LCfg :=
  ⟨[0, 1],
   fun b => if b = 0 then [1] else [],
   fun b => if b = 0 then [LAct.set 0] else [LAct.get 0, LAct.get 1]⟩

/-- Witness for C4: the monotonicity theorem applied to the initial state of
a concrete two-block CFG. -/
theorem flowIndexLiveness_monotone_witness :
    (LWfCfg livenessWitnessCfg ∧
      LReaches livenessWitnessCfg (initLState livenessWitnessCfg) ∧
      0 ∈ livenessWitnessCfg.blocks) ∧
    ((∀ c ∈ livenessWitnessCfg.blocks,
      ((initLState livenessWitnessCfg).startI c).length ≤
        ((processBlock livenessWitnessCfg (initLState livenessWitnessCfg) 0).startI c).length ∧
      ((initLState livenessWitnessCfg).endI c).length ≤
        ((processBlock livenessWitnessCfg (initLState livenessWitnessCfg) 0).endI c).length) ∧
    (livenessWitnessCfg.out 0 ≠ [] →
      mergeStarts (initLState livenessWitnessCfg) (livenessWitnessCfg.out 0) ≠
        (initLState livenessWitnessCfg).endI 0 →
      ((initLState livenessWitnessCfg).endI 0).length <
        (mergeStarts (initLState livenessWitnessCfg) (livenessWitnessCfg.out 0)).length ∧
      (scanLivenessThroughActions (livenessWitnessCfg.actions 0)
          (mergeStarts (initLState livenessWitnessCfg) (livenessWitnessCfg.out 0)) ≠
        (initLState livenessWitnessCfg).startI 0 →
        ((initLState livenessWitnessCfg).startI 0).length <
          (scanLivenessThroughActions (livenessWitnessCfg.actions 0)
            (mergeStarts (initLState livenessWitnessCfg) (livenessWitnessCfg.out 0))).length))) :=
  ⟨⟨by unfold LWfCfg; decide, LReaches.init, by decide⟩,
   flowIndexLiveness_monotone livenessWitnessCfg (by unfold LWfCfg; decide)
     (initLState livenessWitnessCfg) LReaches.init 0 (by decide)⟩

/-- C10: on strictly sorted (hence duplicate-free) index vectors, `merge`
computes exactly the set union and stays strictly sorted; `insert` and
`erase` likewise preserve strict sortedness and realize element insertion
and removal; and set equality coincides with representation equality. -/
theorem sortedVector_set_semantics (s t : List Nat) (x : Nat)
    (hs : List.Pairwise (· < ·) s) (ht : List.Pairwise (· < ·) t) :
    (List.Pairwise (· < ·) (SortedVector.merge s t) ∧
      ∀ a, a ∈ SortedVector.merge s t ↔ a ∈ s ∨ a ∈ t) ∧
    (List.Pairwise (· < ·) (SortedVector.insert x s) ∧
      ∀ a, a ∈ SortedVector.insert x s ↔ a = x ∨ a ∈ s) ∧
    (List.Pairwise (· < ·) (SortedVector.erase x s) ∧
      ∀ a, a ∈ SortedVector.erase x s ↔ a ∈ s ∧ a ≠ x) ∧
    ((∀ a, a ∈ s ↔ a ∈ t) → s = t) :=
  ⟨⟨SortedVector.sorted_merge hs ht, fun _ => SortedVector.mem_merge⟩,
   ⟨SortedVector.sorted_insert hs, fun _ => SortedVector.mem_insert⟩,
   ⟨SortedVector.sorted_erase hs, fun _ => SortedVector.mem_erase hs⟩,
   SortedVector.eq_of_mem_iff hs ht⟩

/-- Witness for C10: the set semantics theorem applied at concrete sorted
vectors. -/
theorem sortedVector_set_semantics_witness :
    (List.Pairwise (· < ·) [1, 3, 5] ∧ List.Pairwise (· < ·) [2, 3]) ∧
    ((List.Pairwise (· < ·) (SortedVector.merge [1, 3, 5] [2, 3]) ∧
      ∀ a, a ∈ SortedVector.merge [1, 3, 5] [2, 3] ↔ a ∈ [1, 3, 5] ∨ a ∈ [2, 3]) ∧
    (List.Pairwise (· < ·) (SortedVector.insert 2 [1, 3, 5]) ∧
      ∀ a, a ∈ SortedVector.insert 2 [1, 3, 5] ↔ a = 2 ∨ a ∈ [1, 3, 5]) ∧
    (List.Pairwise (· < ·) (SortedVector.erase 2 [1, 3, 5]) ∧
      ∀ a, a ∈ SortedVector.erase 2 [1, 3, 5] ↔ a ∈ [1, 3, 5] ∧ a ≠ 2) ∧
    ((∀ a, a ∈ [1, 3, 5] ↔ a ∈ [2, 3]) → [1, 3, 5] = [2, 3])) :=
  ⟨⟨by decide, by decide⟩,
   sortedVector_set_semantics [1, 3, 5] [2, 3] 2 (by decide) (by decide)⟩

/-! ## cfg/liveness-traversal.h — write liveness (`flowSetLiveness`)

The first stage of `flowSetLiveness` computes `endSets` per block: an
index-to-latest-`SetLocal` map is filled by scanning a block's actions
forward, and every map entry whose index is live at the block's end is put
into that block's `endSets`.  In the source the map `indexSets` is declared
OUTSIDE the per-block loop, so entries left by earlier blocks survive into
later blocks.  Writes are identified by numeric ids. -/

/-- An action as seen by `flowSetLiveness`: a set carries the id of its
`SetLocal` in addition to the written index. -/
inductive WAct where
  | wget (index : Nat)
  | wset (index : Nat) (sid : Nat)
  | wother
deriving DecidableEq, Repr

/-- A live basic block at the point `flowSetLiveness` runs: its action list
and its already-computed `endIndexes`. -/
structure WBlock where
  actions : List WAct
  endIndexes : List Nat
deriving DecidableEq, Repr

/-- Association-list update mirroring `indexSets[action.index] = set`
(`std::map` assignment: overwrite the entry if the key exists, insert it
otherwise). -/
def mapAssign : List (Nat × Nat) → Nat → Nat → List (Nat × Nat)
  | [], k, v => [(k, v)]
  | (k', v') :: rest, k, v =>
    if k = k' then (k, v) :: rest else (k', v') :: mapAssign rest k v

/-- Forward scan of one block's actions over the (shared!) index-to-set map:
each set possibly overwrites a previous entry for its index. -/
def scanBlockSets (m : List (Nat × Nat)) (actions : List WAct) : List (Nat × Nat) :=
  actions.foldl
    (fun m a =>
      match a with
      | .wset i sid => mapAssign m i sid
      | _ => m)
    m

/-- Embedding of the first loop of `flowSetLiveness`: iterate over the live
blocks in order, threading `indexSets` across blocks exactly as the source
does (the map is declared outside the loop), and emit for each block the set
ids of the map entries whose index is in the block's `endIndexes`.  Returns
the per-block `endSets` in block order. -/
def flowSetsEnds (blocks : List WBlock) : List (List Nat) :=
  (blocks.foldl
    (fun (acc : List (Nat × Nat) × List (List Nat)) b =>
      let m := scanBlockSets acc.1 b.actions
      (m, acc.2 ++ [(m.filter (fun p => b.endIndexes.contains p.1)).map Prod.snd]))
    ([], [])).2

/-- Decides whether a block contains a set action to the given index. -/
def blockSetsIndex (b : WBlock) (i : Nat) : Bool :=
  b.actions.any (fun a => match a with | .wset j _ => j = i | _ => false)

/-- The two-block failing input for C2: block 0 writes set 100 to index 0,
whose index is dead at block 0's end; block 1 has no actions at all but
index 0 is live at its end. -/
def c2Blocks : List WBlock :=
  [⟨[WAct.wset 0 100], []⟩, ⟨[], [0]⟩]

/-- C2 (failing-input evaluation): although block 1 of `c2Blocks` contains no
set action whatsoever, the source's `flowSetLiveness` places write 100 —
which occurs only in block 0 — into `endSets` of block 1, because the
index-to-latest-write map is shared across the per-block loop instead of
reflecting only the actions of the block under consideration.  Block 0's own
`endSets` is correctly empty. -/
theorem flowSetsEnds_leaks_across_blocks :
    flowSetsEnds c2Blocks = [[], [100]] ∧
    blockSetsIndex ⟨[], [0]⟩ 0 = false ∧
    (∀ b ∈ c2Blocks, ∀ a ∈ b.actions, a ≠ WAct.wset 0 100 → False) ∧
    ([] : List WAct) = (c2Blocks.get ⟨1, by decide⟩).actions := by
  refine ⟨by decide, by decide, by decide, by decide⟩

/-! ## LivenessAction::removeSet and CoalesceLocals::applyIndices

`applyIndices` remaps every get/set index through the chosen permutation and
drops a `SetLocal` when its (already remapped) value is a get of the same new
index, or when no get is reached by the set.  `removeSet` replaces a dropped
tee by its value (the source spells this `set->value->cast<GetLocal>()`, a
checked identity cast on the stored pointer), nops a dropped non-tee in
place, and demotes the action to `Other`. -/

/-- Minimal expression forms relevant to the rewrite sweep.  `mset` carries a
node id so the set-to-gets map can be consulted; `mleaf` stands for any
other value expression, evaluated through an oracle. -/
inductive MExpr where
  | mget (index : Nat)
  | mset (id : Nat) (index : Nat) (tee : Bool) (value : MExpr)
  | mnop
  | mleaf (id : Nat)
deriving DecidableEq, Repr

/-- Kind tag of a `LivenessAction` (`Get` / `Set` / `Other`). -/
inductive ActKind where
  | akGet
  | akSet
  | akOther
deriving DecidableEq, Repr

/-- A liveness action together with the IR node its `origin` handle points
to. -/
structure CAction where
  kind : ActKind
  origin : MExpr
deriving DecidableEq, Repr

/-- Embedding of `LivenessAction::removeSet`: a tee is replaced in the tree
by its value (the source writes `set->value->cast<GetLocal>()`; `cast` is a
checked identity conversion of the stored pointer), a non-tee is nopped in
place, and the action becomes `Other`. -/
def removeSet (a : CAction) : CAction :=
  match a.origin with
  | .mset _ _ true v => ⟨ActKind.akOther, v⟩
  | .mset _ _ false _ => ⟨ActKind.akOther, MExpr.mnop⟩
  | _ => ⟨ActKind.akOther, a.origin⟩

/-- Big-step evaluation of the mini IR: returns the node's value (0 for a
void node) and the updated store.  Opaque nodes read a pure oracle. -/
def meval (oracle : Nat → Int) : MExpr → (Nat → Int) → Int × (Nat → Int)
  | .mget i, store => (store i, store)
  | .mset _ i tee v, store =>
    let r := meval oracle v store
    (if tee then r.1 else 0, Function.update r.2 i r.1)
  | .mnop, store => (0, store)
  | .mleaf k, store => (oracle k, store)

/-- Embedding of the set-action case of the `applyIndices` sweep: remap the
set's index through `indices`; then drop the set if its (already remapped)
value is a get of the same new index, or if `setGets.getGetsFor(set)` is
empty (`deadSet`). -/
def applySetAction (indices : Nat → Nat) (deadSet : Nat → Bool) (a : CAction) : CAction :=
  match a.origin with
  | .mset id i tee v =>
    let a2 : CAction := ⟨a.kind, .mset id (indices i) tee v⟩
    match v with
    | .mget g =>
      if g = indices i then removeSet a2
      else if deadSet id then removeSet a2 else a2
    | _ => if deadSet id then removeSet a2 else a2
  | _ => a

/-- C9: whenever the rewrite sweep of `applyIndices` drops a set (self-copy
of the same new index, or no reached get), tee semantics are respected: a
dropped tee is replaced by an expression that evaluates to the written value
(in the self-copy case, precisely a get of the same new index; in general,
the value node), a dropped non-tee is replaced by a nop, and the action is
demoted to `Other`.  A set that is not dropped keeps its `Set` action and is
merely remapped. -/
theorem applyIndices_removeSet_semantics (indices : Nat → Nat) (deadSet : Nat → Bool)
    (id i : Nat) (tee : Bool) (v : MExpr)
    (hdrop : v = MExpr.mget (indices i) ∨ deadSet id = true) :
    ((applySetAction indices deadSet ⟨ActKind.akSet, .mset id i tee v⟩).kind = ActKind.akOther) ∧
    (tee = true →
      (applySetAction indices deadSet ⟨ActKind.akSet, .mset id i tee v⟩).origin = v ∧
      (∀ oracle store,
        (meval oracle ((applySetAction indices deadSet
            ⟨ActKind.akSet, .mset id i tee v⟩).origin) store).1 =
        (meval oracle (MExpr.mset id (indices i) tee v) store).1) ∧
      (v = MExpr.mget (indices i) →
        (applySetAction indices deadSet ⟨ActKind.akSet, .mset id i tee v⟩).origin =
          MExpr.mget (indices i))) ∧
    (tee = false →
      (applySetAction indices deadSet ⟨ActKind.akSet, .mset id i tee v⟩).origin =
        MExpr.mnop) := by
  have hdropped : applySetAction indices deadSet ⟨ActKind.akSet, .mset id i tee v⟩ =
      removeSet ⟨ActKind.akSet, .mset id (indices i) tee v⟩ := by
    rcases hdrop with hv | hd
    · subst hv
      simp [applySetAction]
    · cases v with
      | mget g =>
        by_cases hg : g = indices i
        · simp [applySetAction, hg]
        · simp [applySetAction, hg, hd]
      | mset id2 i2 t2 v2 => simp [applySetAction, hd]
      | mnop => simp [applySetAction, hd]
      | mleaf k => simp [applySetAction, hd]
  rw [hdropped]
  cases tee with
  | true =>
    refine ⟨rfl, ?_, ?_⟩
    · intro _
      refine ⟨rfl, ?_, ?_⟩
      · intro oracle store
        simp [removeSet, meval]
      · intro hv
        simp [removeSet, hv]
    · intro h
      exact absurd h (by simp)
  | false =>
    refine ⟨rfl, ?_, ?_⟩
    · intro h
      exact absurd h (by simp)
    · intro _
      rfl

/-- Witness for C9: dropping a concrete self-copy tee. -/
theorem applyIndices_removeSet_semantics_witness :
    ((MExpr.mget 2 = MExpr.mget ((fun i => i) 2) ∨ (fun _ => false) 7 = true) ∧
      True) ∧
    (((applySetAction (fun i => i) (fun _ => false)
        ⟨ActKind.akSet, .mset 7 2 true (MExpr.mget 2)⟩).kind = ActKind.akOther) ∧
    (true = true →
      (applySetAction (fun i => i) (fun _ => false)
        ⟨ActKind.akSet, .mset 7 2 true (MExpr.mget 2)⟩).origin = MExpr.mget 2 ∧
      (∀ oracle store,
        (meval oracle ((applySetAction (fun i => i) (fun _ => false)
            ⟨ActKind.akSet, .mset 7 2 true (MExpr.mget 2)⟩).origin) store).1 =
        (meval oracle (MExpr.mset 7 ((fun i => i) 2) true (MExpr.mget 2)) store).1) ∧
      (MExpr.mget 2 = MExpr.mget ((fun i => i) 2) →
        (applySetAction (fun i => i) (fun _ => false)
          ⟨ActKind.akSet, .mset 7 2 true (MExpr.mget 2)⟩).origin =
            MExpr.mget ((fun i => i) 2))) ∧
    (true = false →
      (applySetAction (fun i => i) (fun _ => false)
        ⟨ActKind.akSet, .mset 7 2 true (MExpr.mget 2)⟩).origin = MExpr.mnop)) :=
  ⟨⟨Or.inl rfl, trivial⟩,
   applyIndices_removeSet_semantics (fun i => i) (fun _ => false) 7 2 true
     (MExpr.mget 2) (Or.inl rfl)⟩

/-! ## CoalesceLocals::Interferences::compute

Write-level interference: per live block, start from `endSets` as the live
set and walk the actions backward; on a get the reaching sets become live
and interfere with everything live, except that a pair is skipped when it is
equal, shares a local index, or is equivalent; on a set the set dies.  Sets
are identified by ids; `setIndex`, the equivalence classes and the
get-to-reaching-sets map are inputs of the engine.  After the block walk,
set-level interference is lifted to index level, and used zero-init
variables are forced to interfere with every parameter index. -/

/-- Inputs of the interference engine (fields of `CoalesceLocals` consumed by
`Interferences::compute`): index of each set, its computed equivalence
class, and `GetSets::getSetsFor`. -/
structure IEnv where
  setIndex : Nat → Nat
  eqClass : Nat → Nat
  getSets : Nat → List Nat

/-- An action as seen by the interference scan. -/
inductive IAct where
  | iget (g : Nat)
  | iset (s : Nat)
  | iother
deriving DecidableEq, Repr

/-- A live block at interference time: its `endSets` and its actions. -/
structure IBlock where
  endSets : List Nat
  actions : List IAct
deriving DecidableEq, Repr

/-- Canonical form of a `SymmetricPair`: the components are ordered on
construction. -/
def canonPair (a b : Nat) : Nat × Nat :=
  if a ≤ b then (a, b) else (b, a)

/-- Canonicalized insertion into the symmetric relation
(`SymmetricRelation::insert` via `SymmetricPair`; `std::set` insertion
deduplicates). -/
def insertPair (a b : Nat) (acc : List (Nat × Nat)) : List (Nat × Nat) :=
  if canonPair a b ∈ acc then acc else canonPair a b :: acc

/-- Embedding of `maybeInterfere`: the pair is recorded unless it is equal,
shares an index, or is equivalent. -/
def maybeInterfere (env : IEnv) (a b : Nat) (acc : List (Nat × Nat)) : List (Nat × Nat) :=
  if a ≠ b ∧ env.setIndex a ≠ env.setIndex b ∧ env.eqClass a ≠ env.eqClass b then
    insertPair a b acc
  else acc

/-- Embedding of `interfereBetweenAll`: all pairs of the given live set. -/
def interfereBetweenAll (env : IEnv) (live : List Nat) (acc : List (Nat × Nat)) :
    List (Nat × Nat) :=
  live.foldl (fun acc a => live.foldl (fun acc b => maybeInterfere env a b acc) acc) acc

/-- Deduplicating insertion into the live `std::set`. -/
def listInsert (x : Nat) (l : List Nat) : List Nat :=
  if x ∈ l then l else x :: l

/-- `std::set::erase` of the (unique) element. -/
def listErase (x : Nat) (l : List Nat) : List Nat :=
  l.filter (fun y => y ≠ x)

/-- One action of the backward scan: on a get, each reaching set becomes live
and is tested against everything currently live; on a set, the set dies. -/
def interfStep (env : IEnv) (st : List Nat × List (Nat × Nat)) (a : IAct) :
    List Nat × List (Nat × Nat) :=
  match a with
  | .iget g =>
    (env.getSets g).foldl
      (fun st set =>
        let live := listInsert set st.1
        (live, live.foldl (fun acc otherSet => maybeInterfere env set otherSet acc) st.2))
      st
  | .iset s => (listErase s st.1, st.2)
  | .iother => st

/-- Embedding of the per-block part of `Interferences::compute`: seed the
live set with `endSets`, record their mutual interferences, then scan the
actions from last to first. -/
def processInterfBlock (env : IEnv) (acc : List (Nat × Nat)) (b : IBlock) :
    List (Nat × Nat) :=
  let acc := interfereBetweenAll env b.endSets acc
  (b.actions.foldr (fun a st => interfStep env st a) (b.endSets, acc)).2

/-- The set-level interference relation over all live blocks. -/
def computeSetInterferences (env : IEnv) (blocks : List IBlock) : List (Nat × Nat) :=
  blocks.foldl (processInterfBlock env) []

/-- The guard of `maybeInterfere`, as a predicate on stored pairs. -/
def interfGuard (env : IEnv) (p : Nat × Nat) : Prop :=
  p.1 ≠ p.2 ∧ env.setIndex p.1 ≠ env.setIndex p.2 ∧ env.eqClass p.1 ≠ env.eqClass p.2

theorem foldl_preserve {α β : Type} {P : β → Prop} (f : β → α → β)
    (hf : ∀ b a, P b → P (f b a)) :
    ∀ (l : List α) (b : β), P b → P (l.foldl f b)
  | [], _, hb => hb
  | a :: l, b, hb => foldl_preserve f hf l (f b a) (hf b a hb)

theorem mem_insertPair {a b : Nat} {acc : List (Nat × Nat)} {p : Nat × Nat}
    (hp : p ∈ insertPair a b acc) : p ∈ acc ∨ p = (a, b) ∨ p = (b, a) := by
  rw [insertPair] at hp
  by_cases hmem : canonPair a b ∈ acc
  · rw [if_pos hmem] at hp
    exact Or.inl hp
  · rw [if_neg hmem] at hp
    rcases List.mem_cons.1 hp with rfl | hp
    · rw [canonPair]
      by_cases hab : a ≤ b
      · rw [if_pos hab]
        exact Or.inr (Or.inl rfl)
      · rw [if_neg hab]
        exact Or.inr (Or.inr rfl)
    · exact Or.inl hp

theorem maybeInterfere_guard {env : IEnv} {a b : Nat} {acc : List (Nat × Nat)}
    (hacc : ∀ p ∈ acc, interfGuard env p) :
    ∀ p ∈ maybeInterfere env a b acc, interfGuard env p := by
  intro p hp
  rw [maybeInterfere] at hp
  by_cases hcond : a ≠ b ∧ env.setIndex a ≠ env.setIndex b ∧ env.eqClass a ≠ env.eqClass b
  · rw [if_pos hcond] at hp
    rcases mem_insertPair hp with hp | rfl | rfl
    · exact hacc p hp
    · exact hcond
    · rcases hcond with ⟨h1, h2, h3⟩
      exact ⟨fun h => h1 h.symm, fun h => h2 h.symm, fun h => h3 h.symm⟩
  · rw [if_neg hcond] at hp
    exact hacc p hp

theorem foldr_preserve {α β : Type} {P : β → Prop} (f : α → β → β)
    (hf : ∀ a b, P b → P (f a b)) :
    ∀ (l : List α) (b : β), P b → P (l.foldr f b)
  | [], _, hb => hb
  | a :: l, b, hb => hf a _ (foldr_preserve f hf l b hb)

theorem interfStep_guard (env : IEnv) (a : IAct) (st : List Nat × List (Nat × Nat))
    (hacc : ∀ p ∈ st.2, interfGuard env p) :
    ∀ p ∈ (interfStep env st a).2, interfGuard env p := by
  cases a with
  | iget g =>
    rw [interfStep]
    refine foldl_preserve
      (P := fun (st : List Nat × List (Nat × Nat)) => ∀ p ∈ st.2, interfGuard env p)
      _ ?_ (env.getSets g) st hacc
    intro st set hst
    exact foldl_preserve (P := fun acc => ∀ p ∈ acc, interfGuard env p)
      _ (fun acc b hb => maybeInterfere_guard hb) _ st.2 hst
  | iset s => exact hacc
  | iother => exact hacc

/-- C5: every pair in the write-level interference relation produced by
`Interferences::compute` consists of two distinct writes with distinct local
indexes and distinct equivalence classes; in particular two writes with the
same index never interfere (in either orientation of the stored pair). -/
theorem setInterferences_guarded (env : IEnv) (blocks : List IBlock)
    (p : Nat × Nat) (hp : p ∈ computeSetInterferences env blocks) :
    (p.1 ≠ p.2 ∧ env.setIndex p.1 ≠ env.setIndex p.2 ∧
      env.eqClass p.1 ≠ env.eqClass p.2) ∧
    (∀ a b : Nat, env.setIndex a = env.setIndex b →
      (a, b) ∉ computeSetInterferences env blocks) := by
  have hall : ∀ q ∈ computeSetInterferences env blocks, interfGuard env q := by
    rw [computeSetInterferences]
    refine foldl_preserve (P := fun acc => ∀ q ∈ acc, interfGuard env q)
      _ ?_ blocks [] (by intro q hq; exact absurd hq (List.not_mem_nil q))
    intro acc b hacc
    rw [processInterfBlock]
    have hmid : ∀ q ∈ interfereBetweenAll env b.endSets acc, interfGuard env q := by
      rw [interfereBetweenAll]
      refine foldl_preserve (P := fun acc => ∀ q ∈ acc, interfGuard env q)
        _ ?_ b.endSets acc hacc
      intro acc' x hacc'
      exact foldl_preserve (P := fun acc => ∀ q ∈ acc, interfGuard env q)
        _ (fun acc'' y hy => maybeInterfere_guard hy) _ acc' hacc'
    exact foldr_preserve (P := fun st => ∀ p ∈ st.2, interfGuard env p)
      (fun a st => interfStep env st a)
      (fun a st hst => interfStep_guard env a st hst)
      b.actions (b.endSets, interfereBetweenAll env b.endSets acc) hmid
  refine ⟨hall p hp, ?_⟩
  intro a b hidx hmem
  exact (hall (a, b) hmem).2.1 hidx

/-- Concrete interference environment for the C5 witness: two sets of
different indexes and different classes, both live at a block end. -/
def c5Env : IEnv :=
  ⟨fun s => s, fun s => s, fun _ => []⟩

/-- Witness for C5: the guard theorem applied to a pair actually present in
the computed relation. -/
theorem setInterferences_guarded_witness :
    ((0, 1) ∈ computeSetInterferences c5Env [⟨[0, 1], []⟩]) ∧
    (((0 : Nat) ≠ 1 ∧ c5Env.setIndex 0 ≠ c5Env.setIndex 1 ∧
      c5Env.eqClass 0 ≠ c5Env.eqClass 1) ∧
    (∀ a b : Nat, c5Env.setIndex a = c5Env.setIndex b →
      (a, b) ∉ computeSetInterferences c5Env [⟨[0, 1], []⟩])) :=
  ⟨by decide,
   setInterferences_guarded c5Env [⟨[0, 1], []⟩] (0, 1) (by decide)⟩

/-! ## CoalesceLocals::Interferences::compute — index lifting and zero inits

Set-level interference is lifted to index level (both directions entered
into the map), and every zero-initialized variable whose explicit
initialization set (prepended by `InstrumentExplicitSets`) has at least one
consuming get is forced to interfere with every parameter index. -/

/-- Insertion of both orientations of an index pair, mirroring
`indexInterferences[a->index].insert(b->index)` followed by the symmetric
insertion. -/
def addBothDirections (i j : Nat) (acc : List (Nat × Nat)) : List (Nat × Nat) :=
  let acc1 := if (i, j) ∈ acc then acc else (i, j) :: acc
  if (j, i) ∈ acc1 then acc1 else (j, i) :: acc1

/-- Lift the write-level relation to local indexes. -/
def liftToIndexes (env : IEnv) (setPairs : List (Nat × Nat)) : List (Nat × Nat) :=
  setPairs.foldl (fun acc p => addBothDirections (env.setIndex p.1) (env.setIndex p.2) acc) []

/-- Embedding of `SetGets`: the gets reached by a set, derived by inverting
the get-to-sets map over the list of gets. -/
def setGetsFor (env : IEnv) (gets : List Nat) (s : Nat) : List Nat :=
  gets.filter (fun g => s ∈ env.getSets g)

/-- Embedding of the zero-init loop at the end of `Interferences::compute`:
for each declared-variable index `i` (from `numParams` to `numLocals - 1`),
read the instrumented set at position `i` of the entry block's actions, and
if it has any consuming get, interfere `i` with every parameter index. -/
def addZeroInitInterferences (env : IEnv) (gets : List Nat) (entryActions : List IAct)
    (numParams numLocals : Nat) (acc : List (Nat × Nat)) : List (Nat × Nat) :=
  (List.range' numParams (numLocals - numParams)).foldl
    (fun acc i =>
      match entryActions.get? i with
      | some (IAct.iset s) =>
        if setGetsFor env gets s ≠ [] then
          (List.range numParams).foldl (fun acc j => addBothDirections i j acc) acc
        else acc
      | _ => acc)
    acc

/-- The full index-level interference relation of `Interferences::compute`
(set-level pairs lifted to indexes, then the forced zero-init/parameter
edges). -/
def computeIndexInterferences (env : IEnv) (blocks : List IBlock) (gets : List Nat)
    (entryActions : List IAct) (numParams numLocals : Nat) : List (Nat × Nat) :=
  addZeroInitInterferences env gets entryActions numParams numLocals
    (liftToIndexes env (computeSetInterferences env blocks))

theorem mem_addBothDirections_self (i j : Nat) (acc : List (Nat × Nat)) :
    (i, j) ∈ addBothDirections i j acc ∧ (j, i) ∈ addBothDirections i j acc := by
  rw [addBothDirections]
  by_cases h1 : (i, j) ∈ acc
  · simp only [if_pos h1]
    by_cases h2 : (j, i) ∈ acc
    · rw [if_pos h2]
      exact ⟨h1, h2⟩
    · rw [if_neg h2]
      exact ⟨List.mem_cons_of_mem _ h1, List.mem_cons_self _ _⟩
  · simp only [if_neg h1]
    by_cases h2 : (j, i) ∈ (i, j) :: acc
    · rw [if_pos h2]
      exact ⟨List.mem_cons_self _ _, h2⟩
    · rw [if_neg h2]
      exact ⟨List.mem_cons_of_mem _ (List.mem_cons_self _ _), List.mem_cons_self _ _⟩

theorem mem_addBothDirections_mono {p : Nat × Nat} {acc : List (Nat × Nat)}
    (hp : p ∈ acc) (i j : Nat) : p ∈ addBothDirections i j acc := by
  rw [addBothDirections]
  by_cases h1 : (i, j) ∈ acc
  · simp only [if_pos h1]
    by_cases h2 : (j, i) ∈ acc
    · rw [if_pos h2]
      exact hp
    · rw [if_neg h2]
      exact List.mem_cons_of_mem _ hp
  · simp only [if_neg h1]
    by_cases h2 : (j, i) ∈ (i, j) :: acc
    · rw [if_pos h2]
      exact List.mem_cons_of_mem _ hp
    · rw [if_neg h2]
      exact List.mem_cons_of_mem _ (List.mem_cons_of_mem _ hp)

theorem foldl_mem_of_hit {α : Type} [DecidableEq α] {p : Nat × Nat}
    (f : List (Nat × Nat) → α → List (Nat × Nat)) (a0 : α)
    (hmono : ∀ acc a, ∀ q ∈ acc, q ∈ f acc a)
    (hhit : ∀ acc, p ∈ f acc a0) :
    ∀ (l : List α) (acc : List (Nat × Nat)), a0 ∈ l → p ∈ l.foldl f acc := by
  intro l
  induction l with
  | nil =>
    intro acc h
    exact absurd h (List.not_mem_nil a0)
  | cons a l ih =>
    intro acc h
    rcases List.mem_cons.1 h with rfl | h
    · rw [List.foldl_cons]
      exact foldl_preserve (P := fun acc => p ∈ acc) f (fun b c hb => hmono b c p hb)
        l (f acc a0) (hhit acc)
    · rw [List.foldl_cons]
      exact ih (f acc a) h

/-- C6: after `Interferences::compute`, every declared variable whose
instrumented explicit initialization set has at least one consuming get
interferes, at index level and in both orientations, with every parameter
index. -/
theorem zeroInit_interferes_with_params (env : IEnv) (blocks : List IBlock)
    (gets : List Nat) (entryActions : List IAct) (numParams numLocals : Nat)
    (i s : Nat) (hi1 : numParams ≤ i) (hi2 : i < numLocals)
    (hset : entryActions.get? i = some (IAct.iset s))
    (hused : setGetsFor env gets s ≠ []) :
    ∀ j < numParams,
      (i, j) ∈ computeIndexInterferences env blocks gets entryActions numParams numLocals ∧
      (j, i) ∈ computeIndexInterferences env blocks gets entryActions numParams numLocals := by
  intro j hj
  have hstepmono : ∀ (acc : List (Nat × Nat)) (k : Nat), ∀ q ∈ acc,
      q ∈ (fun acc k =>
        match entryActions.get? k with
        | some (IAct.iset s) =>
          if setGetsFor env gets s ≠ [] then
            (List.range numParams).foldl (fun acc j => addBothDirections k j acc) acc
          else acc
        | _ => acc) acc k := by
    intro acc k q hq
    dsimp only
    cases hk : entryActions.get? k with
    | none =>
      simp only [hk]
      exact hq
    | some ak =>
      cases ak with
      | iget g =>
        simp only [hk]
        exact hq
      | iother =>
        simp only [hk]
        exact hq
      | iset s2 =>
        simp only [hk]
        by_cases hne : setGetsFor env gets s2 ≠ []
        · rw [if_pos hne]
          exact foldl_preserve (P := fun acc => q ∈ acc) _
            (fun b c hb => mem_addBothDirections_mono hb k c) _ acc hq
        · rw [if_neg hne]
          exact hq
  have hhit : ∀ acc : List (Nat × Nat),
      (i, j) ∈ (fun acc k =>
        match entryActions.get? k with
        | some (IAct.iset s) =>
          if setGetsFor env gets s ≠ [] then
            (List.range numParams).foldl (fun acc j => addBothDirections k j acc) acc
          else acc
        | _ => acc) acc i ∧
      (j, i) ∈ (fun acc k =>
        match entryActions.get? k with
        | some (IAct.iset s) =>
          if setGetsFor env gets s ≠ [] then
            (List.range numParams).foldl (fun acc j => addBothDirections k j acc) acc
          else acc
        | _ => acc) acc i := by
    intro acc
    dsimp only
    simp only [hset]
    rw [if_pos hused]
    constructor
    · exact foldl_mem_of_hit _ j (fun acc2 c q hq => mem_addBothDirections_mono hq i c)
        (fun b => (mem_addBothDirections_self i j b).1) _ acc (List.mem_range.2 hj)
    · exact foldl_mem_of_hit _ j (fun acc2 c q hq => mem_addBothDirections_mono hq i c)
        (fun b => (mem_addBothDirections_self i j b).2) _ acc (List.mem_range.2 hj)
  have hirange : i ∈ List.range' numParams (numLocals - numParams) := by
    rw [List.mem_range']
    exact ⟨i - numParams, by omega, by omega⟩
  rw [computeIndexInterferences, addZeroInitInterferences]
  constructor
  · exact foldl_mem_of_hit _ i hstepmono (fun acc => (hhit acc).1) _ _ hirange
  · exact foldl_mem_of_hit _ i hstepmono (fun acc => (hhit acc).2) _ _ hirange

/-- Concrete interference environment for the C6 witness: get 11 is reached
by set 11, so the zero-init set 11 has a consuming read. -/
def c6Env : IEnv :=
  ⟨fun s => s, fun s => s, fun _ => [11]⟩

/-- Witness for C6: a function with one parameter and one used
zero-initialized variable; the variable's index 1 is forced to interfere
with parameter index 0. -/
theorem zeroInit_interferes_with_params_witness :
    ((1 ≤ 1 ∧ 1 < 2) ∧
      ([IAct.iset 10, IAct.iset 11] : List IAct).get? 1 = some (IAct.iset 11) ∧
      setGetsFor c6Env [11] 11 ≠ []) ∧
    ((1, 0) ∈ computeIndexInterferences c6Env [] [11] [IAct.iset 10, IAct.iset 11] 1 2 ∧
     (0, 1) ∈ computeIndexInterferences c6Env [] [11] [IAct.iset 10, IAct.iset 11] 1 2) :=
  ⟨⟨⟨by decide, by decide⟩, by decide, by decide⟩,
   zeroInit_interferes_with_params c6Env [] [11] [IAct.iset 10, IAct.iset 11] 1 2 1 11
     (by decide) (by decide) (by decide) (by decide) 0 (by decide)⟩

/-! ## RedundantSetElimination.cpp

`Equivalences::compute` builds a graph with one node per set plus one node
per observed literal (pre-seeded with the five typed zeros), connected by
direct edges (copied values, unique reaching set, shared literal) and merge
edges (several reaching sets), and flood-fills equivalence classes; the
flood worklist is a `std::set`, modelled by popping the minimal node id.
`visitSetLocal` then marks a set as unneeded when the instrumented pre-state
get has exactly one reaching set whose class equals the set's own class (the
source carries a TODO for the several-reaching-but-equivalent case). -/

/-- A literal: its type tag (0 = i32, 1 = i64, 2 = f32, 3 = f64, 4 = v128)
and its value. -/
structure RLit where
  ty : Nat
  val : Int
deriving DecidableEq, Repr

/-- The unused-fallthrough-normalized value of a set, classified as the
source does: a tee, a get, a constant, or anything else. -/
inductive RVal where
  | rtee (s : Nat)
  | rget (g : Nat)
  | rconst (lit : RLit)
  | rother
deriving DecidableEq, Repr

/-- Inputs of the RSE equivalence engine: one entry per set of the
(uninstrumented) body, plus the `LocalGraph` get-to-sets oracle for the gets
occurring in set values (`none` in a reaching-set list denotes the implicit
zero initialization). -/
structure REnv where
  numSets : Nat
  setReachableVal : Nat → Bool
  setVal : Nat → RVal
  getSetsOf : Nat → List (Option Nat)
  valType : Nat → Nat

/-- Node ids: `0 .. numSets-1` are set nodes, `numSets + t` (`t < 5`) are the
pre-seeded zero-literal nodes.  A node's `setClasses` key is its `SetLocal*`
— i.e. the set id for set nodes and the shared null pointer (here `none`)
for every literal node. -/
def nKey (env : REnv) (n : Nat) : Option Nat :=
  if n < env.numSets then some n else none

/-- The equivalence graph: adjacency of direct edges, merge-in/merge-out
edges, each node's recorded literal (`none` = default `Literal()`), and the
literal-to-node map (seeded with the five zeros, extended at the first
sighting of each other constant). -/
structure RGraph where
  directs : Nat → List Nat
  mergesIn : Nat → List Nat
  mergesOut : Nat → List Nat
  nodeLit : Nat → Option RLit
  litNodes : List (RLit × Nat)

/-- Append an edge endpoint to one node's adjacency list. -/
def pushEdge (f : Nat → List Nat) (n x : Nat) : Nat → List Nat :=
  fun m => if m = n then f m ++ [x] else f m

/-- Embedding of `Node::addDirect` (bidirectional). -/
def addDirect (g : RGraph) (a b : Nat) : RGraph :=
  { g with directs := pushEdge (pushEdge g.directs a b) b a }

/-- Embedding of `Node::addMergeIn`. -/
def addMergeIn (g : RGraph) (node other : Nat) : RGraph :=
  { g with mergesIn := pushEdge g.mergesIn node other,
           mergesOut := pushEdge g.mergesOut other node }

/-- Lookup in the literal-to-node map. -/
def litLookup (l : List (RLit × Nat)) (lit : RLit) : Option Nat :=
  (l.find? (fun p => p.1 = lit)).map Prod.snd

/-- Embedding of `getNode`: a `nullptr` reaching set denotes the zero
initialization, resolved to the pre-seeded zero-literal node of the value's
type. -/
def rNode (env : REnv) (p : Option Nat) (ty : Nat) : Nat :=
  match p with
  | some s => s
  | none => env.numSets + ty

/-- Embedding of the connection-building loop of `Equivalences::compute`. -/
def buildRGraph (env : REnv) : RGraph :=
  let init : RGraph :=
    { directs := fun _ => []
      mergesIn := fun _ => []
      mergesOut := fun _ => []
      nodeLit := fun n =>
        if env.numSets ≤ n ∧ n < env.numSets + 5 then some ⟨n - env.numSets, 0⟩ else none
      litNodes := (List.range 5).map (fun t => (⟨t, 0⟩, env.numSets + t)) }
  (List.range env.numSets).foldl
    (fun g s =>
      if env.setReachableVal s = false then g
      else
        match env.setVal s with
        | .rtee s2 => addDirect g s s2
        | .rget gt =>
          match env.getSetsOf gt with
          | [p] => addDirect g s (rNode env p (env.valType s))
          | ps =>
            if ps.length > 1 then
              ps.foldl (fun g p => addMergeIn g s (rNode env p (env.valType s))) g
            else g
        | .rconst lit =>
          let g2 :=
            match litLookup g.litNodes lit with
            | some ln => addDirect g s ln
            | none => { g with litNodes := g.litNodes ++ [(lit, s)] }
          { g2 with nodeLit := fun n => if n = s then some lit else g2.nodeLit n }
        | .rother => g)
    init

/-- Embedding of the restartable flood-fill inner loop: pop the minimal node
from the worklist, skip it if it already carries the current class,
otherwise (re)assign the class under the node's set key and literal key,
push its direct neighbours, and push each outgoing merge all of whose
merge-in sources already carry the current class. -/
def floodLoop (env : REnv) (g : RGraph) :
    Nat → List Nat → Nat → (Option Nat → Nat) → (Option RLit → Nat) →
    (Option Nat → Nat) × (Option RLit → Nat)
  | 0, _, _, setCl, litCl => (setCl, litCl)
  | _ + 1, [], _, setCl, litCl => (setCl, litCl)
  | fuel + 1, n :: rest, currClass, setCl, litCl =>
    if setCl (nKey env n) = currClass then floodLoop env g fuel rest currClass setCl litCl
    else
      let setCl2 := fun k => if k = nKey env n then currClass else setCl k
      let litCl2 := fun k => if k = g.nodeLit n then currClass else litCl k
      let work := (g.directs n).foldl (fun w d => SortedVector.insert d w) rest
      let work := (g.mergesOut n).foldl
        (fun w m =>
          if setCl2 (nKey env m) = currClass then w
          else if (g.mergesIn m).all (fun mi => setCl2 (nKey env mi) = currClass) then
            SortedVector.insert m w
          else w)
        work
      floodLoop env g fuel work currClass setCl2 litCl2

/-- Embedding of the class-assignment outer loop of `Equivalences::compute`:
each not-yet-classed node starts a fresh class and is flooded. -/
def computeRseClasses (env : REnv) (fuel : Nat) :
    (Option Nat → Nat) × (Option RLit → Nat) :=
  let g := buildRGraph env
  let st := (List.range (env.numSets + 5)).foldl
    (fun (st : ((Option Nat → Nat) × (Option RLit → Nat)) × Nat) n =>
      if st.1.1 (nKey env n) ≠ 0 then st
      else
        let c := st.2 + 1
        (floodLoop env g fuel [n] c st.1.1 st.1.2, c))
    ((fun _ => 0, fun _ => 0), 0)
  st.1

/-- Embedding of `RedundantSetElimination::visitSetLocal`: the set is marked
unneeded iff it is reachable and the instrumented pre-state get has exactly
one reaching set (possibly the implicit zero init) whose class equals the
set's own class. -/
def rseVisitSet (reachable : Bool) (sets : List (Option Nat))
    (setCl : Option Nat → Nat) (litCl : Option RLit → Nat)
    (zeroOfValType : RLit) (currSet : Nat) : Bool :=
  if reachable = false then false
  else
    match sets with
    | [p] =>
      let parentClass :=
        match p with
        | some parent => setCl (some parent)
        | none => litCl (some zeroOfValType)
      setCl (some currSet) == parentClass
    | _ => false

/-- Concrete counterexample program for C3: `if c then x = const 7 else
x = const 7; x = const 7`.  Sets 0 and 1 are the two branch writes, set 2
the final write; all three are `const 7` of type i32. -/
def c3Env : REnv :=
  ⟨3, fun _ => true, fun _ => RVal.rconst ⟨0, 7⟩, fun _ => [], fun _ => 0⟩

/-- C3 counterexample: the pre-state get of set 2 is reached by the two
branch writes, which the flood-fill places in the same class as set 2
itself; the claim then requires set 2 to be marked, but `visitSetLocal`
refuses to mark any set whose pre-state get has more than one reaching
write (the source's TODO).  All classes are evaluated from the embedded
`Equivalences::compute`. -/
theorem rse_multiple_equivalent_not_marked :
    (computeRseClasses c3Env 50).1 (some 0) = 1 ∧
    (computeRseClasses c3Env 50).1 (some 1) = 1 ∧
    (computeRseClasses c3Env 50).1 (some 2) = 1 ∧
    rseVisitSet true [some 0, some 1] (computeRseClasses c3Env 50).1
      (computeRseClasses c3Env 50).2 ⟨0, 0⟩ 2 = false ∧
    (([some 0, some 1] : List (Option Nat)) ≠ [] ∧
      (∀ p ∈ ([some 0, some 1] : List (Option Nat)), ∀ q ∈ ([some 0, some 1] : List (Option Nat)),
        (computeRseClasses c3Env 50).1 p = (computeRseClasses c3Env 50).1 q) ∧
      (computeRseClasses c3Env 50).1 (some 0) = (computeRseClasses c3Env 50).1 (some 2)) := by
  refine ⟨by decide, by decide, by decide, by decide, by decide, ?_, by decide⟩
  decide

/-- C3 amended: `visitSetLocal` marks a set as unneeded exactly when the set
is reachable and exactly one write (or the implicit zero init) reaches its
instrumented pre-state get and that write's equivalence class equals the
set's own class; several reaching writes — even mutually equivalent ones —
never mark. -/
theorem rseVisitSet_spec (reachable : Bool) (sets : List (Option Nat))
    (setCl : Option Nat → Nat) (litCl : Option RLit → Nat)
    (zeroOfValType : RLit) (currSet : Nat) :
    rseVisitSet reachable sets setCl litCl zeroOfValType currSet = true ↔
      (reachable = true ∧ ∃ p, sets = [p] ∧
        setCl (some currSet) =
          (match p with
           | some parent => setCl (some parent)
           | none => litCl (some zeroOfValType))) := by
  cases reachable with
  | false =>
    simp [rseVisitSet]
  | true =>
    match sets with
    | [] => simp [rseVisitSet]
    | [p] =>
      cases p with
      | some parent =>
        simp only [rseVisitSet, beq_iff_eq]
        constructor
        · intro h
          refine ⟨by trivial, some parent, rfl, ?_⟩
          simpa using h
        · rintro ⟨-, q, hq, hcl⟩
          cases hq
          simpa using hcl
      | none =>
        simp only [rseVisitSet, beq_iff_eq]
        constructor
        · intro h
          refine ⟨by trivial, none, rfl, ?_⟩
          simpa using h
        · rintro ⟨-, q, hq, hcl⟩
          cases hq
          simpa using hcl
    | p :: q :: rest => simp [rseVisitSet]

/-! ## CopyPropagation.cpp

`doWalkFunction` rewrites each get of an SSA local whose single reaching set
has a copy-shaped value (a get, or a tee): it walks the producer chain as
far as possible through a `OneTimeWorkList`, overwriting `bestIndex` with
the index of every SSA node visited that differs from the get's own index,
and finally rewrites the get to `bestIndex` when it differs.  The
`LocalGraph` oracle (`getSetses`, `isSSA`) and the fallthrough normalizer
are external interfaces, taken as inputs; the `changesDone` bookkeeping of
the outer fixpoint loop only guards against cycles across iterations and is
outside this per-get model. -/

/-- The normalized value of a set, as tested by `getRelevantSetValue`: a
get, a tee-set, or anything else. -/
inductive CPVal where
  | vget (g : Nat)
  | vtee (s : Nat)
  | vother
deriving DecidableEq, Repr

/-- Inputs of the copy-propagation walk. -/
structure CPEnv where
  getIndex : Nat → Nat
  setIndex : Nat → Nat
  getSetsOf : Nat → List (Option Nat)
  setReachable : Nat → Bool
  setValue : Nat → CPVal
  isSSA : Nat → Bool

/-- Embedding of `getRelevantSet`: the get must have exactly one reaching
set, non-null and not unreachable. -/
def getRelevantSet (env : CPEnv) (g : Nat) : Option Nat :=
  match env.getSetsOf g with
  | [some s] => if env.setReachable s then some s else none
  | _ => none

/-- A work item of the chain walk: a get node or a (tee) set node. -/
inductive CPItem where
  | iget (g : Nat)
  | iset (s : Nat)
deriving DecidableEq, Repr

/-- `OneTimeWorkList::push`: the item goes on the stack only if it was never
pushed before. -/
def cpPushItem (item : CPItem) (stack added : List CPItem) :
    List CPItem × List CPItem :=
  if item ∈ added then (stack, added) else (item :: stack, item :: added)

/-- Embedding of the chain-walk loop of `doWalkFunction`.  `rIdx` is the
index of the get being rewritten; `best` is `bestIndex`; `coll` records, in
visit order, the index of every SSA node the walk visits (the collected
equivalent single-assignment indices).  The fuel bounds the loop; the
`OneTimeWorkList` guarantees each item is handled once, so any fuel at
least the number of items is exact. -/
def cpLoop (env : CPEnv) (rIdx : Nat) :
    Nat → List CPItem → List CPItem → Nat → List Nat → Nat × List Nat
  | 0, _, _, best, coll => (best, coll)
  | _ + 1, [], _, best, coll => (best, coll)
  | fuel + 1, item :: stack, added, best, coll =>
    match item with
    | .iset s =>
      let index := env.setIndex s
      if env.isSSA index then
        let best2 := if index ≠ rIdx then index else best
        let coll2 := coll ++ [index]
        match env.setValue s with
        | .vget g =>
          let pr := cpPushItem (.iget g) stack added
          cpLoop env rIdx fuel pr.1 pr.2 best2 coll2
        | .vtee s2 =>
          let pr := cpPushItem (.iset s2) stack added
          cpLoop env rIdx fuel pr.1 pr.2 best2 coll2
        | .vother => cpLoop env rIdx fuel stack added best2 coll2
      else cpLoop env rIdx fuel stack added best coll
    | .iget g =>
      let index := env.getIndex g
      if env.isSSA index then
        let best2 := if index ≠ rIdx then index else best
        let coll2 := coll ++ [index]
        match getRelevantSet env g with
        | some s2 =>
          let pr := cpPushItem (.iset s2) stack added
          cpLoop env rIdx fuel pr.1 pr.2 best2 coll2
        | none => cpLoop env rIdx fuel stack added best2 coll2
      else cpLoop env rIdx fuel stack added best coll

/-- Embedding of the per-get logic of `doWalkFunction`: when the get is on
an SSA index and has a relevant set with a copy-shaped value, run the chain
walk seeded with that value; returns the final `bestIndex` and the collected
index trace. -/
def cpProcessGet (env : CPEnv) (r : Nat) (fuel : Nat) : Nat × List Nat :=
  let rIdx := env.getIndex r
  if env.isSSA rIdx then
    match getRelevantSet env r with
    | some s =>
      match env.setValue s with
      | .vget g =>
        let pr := cpPushItem (.iget g) [] []
        cpLoop env rIdx fuel pr.1 pr.2 rIdx []
      | .vtee s2 =>
        let pr := cpPushItem (.iset s2) [] []
        cpLoop env rIdx fuel pr.1 pr.2 rIdx []
      | .vother => (rIdx, [])
    | none => (rIdx, [])
  else (rIdx, [])

/-- The rewrite applied to the get: its index becomes `bestIndex` exactly
when that differs from its current index. -/
def cpNewIndex (env : CPEnv) (r fuel : Nat) : Option Nat :=
  let best := (cpProcessGet env r fuel).1
  if best ≠ env.getIndex r then some best else none

/-- Counterexample chain for C1 (all locals SSA):
`local 2 := const; local 1 := get local 2; local 3 := get local 1;
read local 3`.  Get ids: get `r` = 3 (the read being rewritten, index 3),
get 1 reads local 1, get 2 reads local 2.  Set ids: set `k` writes local
`k`. -/
def c1Env : CPEnv :=
  { getIndex := fun g => g
    setIndex := fun s => s
    getSetsOf := fun g => [some g]
    setReachable := fun _ => true
    setValue := fun s => if s = 3 then CPVal.vget 1 else if s = 1 then CPVal.vget 2 else CPVal.vother
    isSSA := fun _ => true }

/-- C1 counterexample: the walk over `c1Env` starting at read 3 collects the
single-assignment indices `[1, 1, 2, 2]`, whose minimum distinct value is 1,
yet the code rewrites the read to index 2 — the deepest producer reached,
not the minimum-valued collected index. -/
theorem copyPropagation_not_minimum :
    cpProcessGet c1Env 3 10 = (2, [1, 1, 2, 2]) ∧
    cpNewIndex c1Env 3 10 = some 2 ∧
    (1 ∈ (cpProcessGet c1Env 3 10).2 ∧ ∀ i ∈ (cpProcessGet c1Env 3 10).2, 1 ≤ i) ∧
    (2 : Nat) ≠ 1 := by
  refine ⟨by decide, by decide, ⟨by decide, by decide⟩, by decide⟩

theorem getLast?_cons_ne_none (a : Nat) (l : List Nat) : (a :: l).getLast? ≠ none := by
  induction l generalizing a with
  | nil => simp
  | cons b l ih =>
    rw [List.getLast?_cons_cons]
    exact ih b

theorem getLast?_mem : ∀ {l : List Nat} {v : Nat}, l.getLast? = some v → v ∈ l := by
  intro l
  induction l with
  | nil => intro v h; simp at h
  | cons a l ih =>
    intro v h
    cases l with
    | nil =>
      simp only [List.getLast?_singleton, Option.some.injEq] at h
      subst h
      exact List.mem_singleton_self a
    | cons b l =>
      rw [List.getLast?_cons_cons] at h
      exact List.mem_cons_of_mem a (ih h)

theorem chainBest (index rIdx best : Nat) (suffix : List Nat) :
    (((index :: suffix).filter (fun i => i != rIdx)).getLast?).getD best =
    ((suffix.filter (fun i => i != rIdx)).getLast?).getD
      (if index ≠ rIdx then index else best) := by
  by_cases h : index ≠ rIdx
  · rw [if_pos h, List.filter_cons, if_pos (by simpa using h)]
    cases hfs : suffix.filter (fun i => i != rIdx) with
    | nil => simp
    | cons a l =>
      rw [List.getLast?_cons_cons]
      cases hlast : (a :: l).getLast? with
      | none => exact absurd hlast (getLast?_cons_ne_none a l)
      | some v => simp
  · rw [if_neg h, List.filter_cons, if_neg (by simpa using h)]

theorem cpLoop_spec (env : CPEnv) (rIdx : Nat) :
    ∀ (fuel : Nat) (stack added : List CPItem) (best : Nat) (coll : List Nat),
      ∃ suffix : List Nat,
        (cpLoop env rIdx fuel stack added best coll).2 = coll ++ suffix ∧
        (cpLoop env rIdx fuel stack added best coll).1 =
          ((suffix.filter (fun i => i != rIdx)).getLast?).getD best ∧
        (∀ i ∈ suffix, env.isSSA i = true) := by
  intro fuel
  induction fuel with
  | zero =>
    intro stack added best coll
    exact ⟨[], by simp [cpLoop], by simp [cpLoop], by simp⟩
  | succ fuel ih =>
    intro stack added best coll
    match stack with
    | [] => exact ⟨[], by simp [cpLoop], by simp [cpLoop], by simp⟩
    | item :: stack =>
      have step :
          ∀ (index : Nat) (hssa : env.isSSA index = true)
            (stack2 added2 : List CPItem),
            cpLoop env rIdx (fuel + 1) (item :: stack) added best coll =
              cpLoop env rIdx fuel stack2 added2
                (if index ≠ rIdx then index else best) (coll ++ [index]) →
            ∃ suffix : List Nat,
              (cpLoop env rIdx (fuel + 1) (item :: stack) added best coll).2 =
                coll ++ suffix ∧
              (cpLoop env rIdx (fuel + 1) (item :: stack) added best coll).1 =
                ((suffix.filter (fun i => i != rIdx)).getLast?).getD best ∧
              (∀ i ∈ suffix, env.isSSA i = true) := by
        intro index hssa stack2 added2 heq
        obtain ⟨suffix, h1, h2, h3⟩ :=
          ih stack2 added2 (if index ≠ rIdx then index else best) (coll ++ [index])
        refine ⟨index :: suffix, ?_, ?_, ?_⟩
        · rw [heq, h1]
          simp
        · rw [heq, h2, chainBest]
        · intro i hi
          rcases List.mem_cons.1 hi with rfl | hi
          · exact hssa
          · exact h3 i hi
      cases item with
      | iset s =>
        by_cases hssa : env.isSSA (env.setIndex s) = true
        · cases hval : env.setValue s with
          | vget g =>
            exact step (env.setIndex s) hssa
              (cpPushItem (CPItem.iget g) stack added).1
              (cpPushItem (CPItem.iget g) stack added).2
              (by rw [cpLoop]; dsimp only; rw [if_pos hssa]; simp only [hval])
          | vtee s2 =>
            exact step (env.setIndex s) hssa
              (cpPushItem (CPItem.iset s2) stack added).1
              (cpPushItem (CPItem.iset s2) stack added).2
              (by rw [cpLoop]; dsimp only; rw [if_pos hssa]; simp only [hval])
          | vother =>
            exact step (env.setIndex s) hssa stack added
              (by rw [cpLoop]; dsimp only; rw [if_pos hssa]; simp only [hval])
        · obtain ⟨suffix, h1, h2, h3⟩ := ih stack added best coll
          have heq : cpLoop env rIdx (fuel + 1) (CPItem.iset s :: stack) added best coll =
              cpLoop env rIdx fuel stack added best coll := by
            rw [cpLoop]
            dsimp only
            rw [if_neg hssa]
          exact ⟨suffix, by rw [heq]; exact h1, by rw [heq]; exact h2, h3⟩
      | iget g =>
        by_cases hssa : env.isSSA (env.getIndex g) = true
        · cases hrel : getRelevantSet env g with
          | some s2 =>
            exact step (env.getIndex g) hssa
              (cpPushItem (CPItem.iset s2) stack added).1
              (cpPushItem (CPItem.iset s2) stack added).2
              (by rw [cpLoop]; dsimp only; rw [if_pos hssa]; simp only [hrel])
          | none =>
            exact step (env.getIndex g) hssa stack added
              (by rw [cpLoop]; dsimp only; rw [if_pos hssa]; simp only [hrel])
        · obtain ⟨suffix, h1, h2, h3⟩ := ih stack added best coll
          have heq : cpLoop env rIdx (fuel + 1) (CPItem.iget g :: stack) added best coll =
              cpLoop env rIdx fuel stack added best coll := by
            rw [cpLoop]
            dsimp only
            rw [if_neg hssa]
          exact ⟨suffix, by rw [heq]; exact h1, by rw [heq]; exact h2, h3⟩

/-- C1 amended: the index the code rewrites a read to is the last-collected
(deepest-traversed) single-assignment index differing from the read's own
index — not necessarily the minimum of the collected indices; when no such
index exists the read is left unchanged; the chosen index is always either
the read's own index or one of the collected single-assignment indices, and
every collected index is single-assignment. -/
theorem copyPropagation_chain_spec (env : CPEnv) (r fuel : Nat) :
    (cpProcessGet env r fuel).1 =
      ((((cpProcessGet env r fuel).2).filter
          (fun i => i != env.getIndex r)).getLast?).getD (env.getIndex r) ∧
    (∀ i ∈ (cpProcessGet env r fuel).2, env.isSSA i = true) ∧
    ((cpProcessGet env r fuel).1 = env.getIndex r ∨
      (cpProcessGet env r fuel).1 ∈ (cpProcessGet env r fuel).2) ∧
    (∀ b, cpNewIndex env r fuel = some b ↔
      ((cpProcessGet env r fuel).1 = b ∧ b ≠ env.getIndex r)) := by
  have hmain : (cpProcessGet env r fuel).1 =
      ((((cpProcessGet env r fuel).2).filter
          (fun i => i != env.getIndex r)).getLast?).getD (env.getIndex r) ∧
      (∀ i ∈ (cpProcessGet env r fuel).2, env.isSSA i = true) := by
    rw [cpProcessGet]
    by_cases hssa : env.isSSA (env.getIndex r) = true
    · simp only [hssa, if_true]
      cases hrel : getRelevantSet env r with
      | none => simp
      | some s =>
        dsimp only
        cases hval : env.setValue s with
        | vget g =>
          dsimp only
          obtain ⟨suffix, h1, h2, h3⟩ := cpLoop_spec env (env.getIndex r) fuel
            (cpPushItem (CPItem.iget g) [] []).1 (cpPushItem (CPItem.iget g) [] []).2
            (env.getIndex r) []
          simp only [List.nil_append] at h1
          exact ⟨by rw [h1, h2], by rw [h1]; exact h3⟩
        | vtee s2 =>
          dsimp only
          obtain ⟨suffix, h1, h2, h3⟩ := cpLoop_spec env (env.getIndex r) fuel
            (cpPushItem (CPItem.iset s2) [] []).1 (cpPushItem (CPItem.iset s2) [] []).2
            (env.getIndex r) []
          simp only [List.nil_append] at h1
          exact ⟨by rw [h1, h2], by rw [h1]; exact h3⟩
        | vother => simp
    · simp only [Bool.not_eq_true] at hssa
      simp [hssa]
  refine ⟨hmain.1, hmain.2, ?_, ?_⟩
  · cases hfil : ((cpProcessGet env r fuel).2).filter (fun i => i != env.getIndex r) with
    | nil =>
      left
      rw [hmain.1, hfil]
      simp
    | cons a l =>
      right
      rw [hmain.1, hfil]
      cases hlast : (a :: l).getLast? with
      | none => exact absurd hlast (getLast?_cons_ne_none a l)
      | some v =>
        simp only [Option.getD_some]
        exact List.mem_of_mem_filter (hfil ▸ getLast?_mem hlast)
  · intro b
    rw [cpNewIndex]
    by_cases hne : (cpProcessGet env r fuel).1 ≠ env.getIndex r
    · rw [if_pos hne]
      constructor
      · intro h
        cases h
        exact ⟨rfl, hne⟩
      · rintro ⟨rfl, -⟩
        rfl
    · rw [if_neg hne]
      constructor
      · intro h
        simp at h
      · rintro ⟨rfl, hb⟩
        exact absurd hb hne

/-! ## CoalesceLocals::pickIndicesFromOrder and pickIndices

Greedy coloring under a given order: parameters are pinned to their own
slots; each later local takes, among the already-open colors of its type
that it does not interfere with, the one resolving the most accumulated copy
weight (`newCopies` is a `uint8_t` array, so accumulation is mod 256), or a
fresh color.  `pickIndices` tries the priority-adjusted identity order and
the priority-adjusted reversed order and keeps the configuration preferring
more removed copies, then fewer colors.  The inputs (`indexInterferences`,
`copies`, `totalCopies`, local types) are fields of the pass, taken as an
environment. -/

/-- Inputs of the index-picking phase. -/
structure CoalesceEnv where
  numLocals : Nat
  numParams : Nat
  localType : Nat → Nat
  interferes : Nat → Nat → Bool
  copies : Nat → Nat → Nat
  totalCopies : Nat → Nat

/-- The mutable state of `pickIndicesFromOrder`: `indices`, `types`,
`newInterferences` (indexed color × local), `newCopies` (color × local,
stored as `uint8_t`), `nextFree` and `removedCopies`. -/
structure PickState where
  indices : Nat → Nat
  types : Nat → Nat
  newInt : Nat → Nat → Bool
  newCop : Nat → Nat → Nat
  nextFree : Nat
  removed : Nat

/-- Pointwise update of a two-argument map. -/
def update2 {β : Type} (f : Nat → Nat → β) (a b : Nat) (v : β) : Nat → Nat → β :=
  fun x y => if x = a ∧ y = b then v else f x y

/-- Embedding of the parameter loop of `pickIndicesFromOrder`: parameter `i`
keeps its slot, records its type, and seeds its interference/copy rows for
the declared-variable columns.  The `uint8_t` store truncates copy weights
mod 256. -/
def paramStep (env : CoalesceEnv) (s : PickState) (i : Nat) : PickState :=
  let s1 : PickState :=
    { s with indices := Function.update s.indices i i
             types := Function.update s.types i (env.localType i) }
  let s2 := (List.range' env.numParams (env.numLocals - env.numParams)).foldl
    (fun s j =>
      { s with newInt := update2 s.newInt i j (env.interferes i j)
               newCop := update2 s.newCop i j (env.copies i j % 256) })
    s1
  { s2 with nextFree := s2.nextFree + 1 }

/-- Embedding of the candidate-color scan for one local `actual`: among the
already-open colors of equal type without interference, keep the one with
the most accumulated copies (first such on ties). -/
def findColor (env : CoalesceEnv) (s : PickState) (actual : Nat) :
    Option (Nat × Nat) :=
  (List.range s.nextFree).foldl
    (fun found j =>
      if s.newInt j actual = false ∧ env.localType actual = s.types j then
        match found with
        | none => some (j, s.newCop j actual)
        | some (fj, fc) =>
          if s.newCop j actual > fc then some (j, s.newCop j actual) else some (fj, fc)
      else found)
    none

/-- Embedding of the declared-variable step of `pickIndicesFromOrder` at
position `i` of the order: color `order i`, then merge its interference and
copy rows into the chosen color's rows for the locals still to come. -/
def varStep (env : CoalesceEnv) (order : Nat → Nat) (s : PickState) (i : Nat) :
    PickState :=
  let actual := order i
  let s2 : PickState :=
    match findColor env s actual with
    | some fc =>
      { s with indices := Function.update s.indices actual fc.1
               removed := s.removed + fc.2 }
    | none =>
      { s with indices := Function.update s.indices actual s.nextFree
               types := Function.update s.types s.nextFree (env.localType actual)
               nextFree := s.nextFree + 1
               removed := s.removed + env.copies s.nextFree actual }
  let found := s2.indices actual
  (List.range' (i + 1) (env.numLocals - (i + 1))).foldl
    (fun s k =>
      let j := order k
      { s with newInt := update2 s.newInt found j (s.newInt found j || env.interferes actual j)
               newCop := update2 s.newCop found j ((s.newCop found j + env.copies actual j) % 256) })
    s2

/-- Embedding of `pickIndicesFromOrder`. -/
def pickIndicesFromOrder (env : CoalesceEnv) (order : Nat → Nat) : PickState :=
  let s0 : PickState :=
    ⟨fun _ => 0, fun _ => 0, fun _ _ => false, fun _ _ => 0, 0, 0⟩
  let s1 := (List.range env.numParams).foldl (paramStep env) s0
  (List.range' env.numParams (env.numLocals - env.numParams)).foldl
    (varStep env order) s1

/-- Modelled from the spec: `makeIdentity` of `support/permutations.h` (the
header is not among the sources) — the identity permutation. -/
def makeIdentity (n : Nat) : List Nat := List.range n

/-- Modelled from the spec: `makeReversed` of `support/permutations.h` (not
among the sources) — `ret[order[i]] = i`, the inverse permutation, used by
`adjustOrderByPriorities` as the position-in-baseline tie-break rank. -/
def makeReversed (order : List Nat) : List Nat :=
  (List.range order.length).map (fun x => order.indexOf x)

/-- Stable insertion into a list sorted by the strict order `less`. -/
def insertSorted (less : Nat → Nat → Bool) (x : Nat) : List Nat → List Nat
  | [] => [x]
  | y :: ys => if less x y then x :: y :: ys else y :: insertSorted less x ys

/-- Insertion sort by the strict order `less`; for the strict total order
used below this yields the unique sorted arrangement that `std::sort`
produces. -/
def sortByLess (less : Nat → Nat → Bool) (l : List Nat) : List Nat :=
  l.foldr (insertSorted less) []

/-- Embedding of `adjustOrderByPriorities`: sort the baseline by descending
priority, breaking ties by the element's position in the baseline. -/
def adjustOrderByPriorities (baseline : List Nat) (priorities : Nat → Nat) :
    List Nat :=
  let reversed := makeReversed baseline
  sortByLess
    (fun x y =>
      priorities y < priorities x ∨
        (priorities x = priorities y ∧ reversed.getD x 0 < reversed.getD y 0))
    baseline

/-- The reversed baseline of `pickIndices`: identity on the parameters, the
declared variables in reverse. -/
def reverseBase (env : CoalesceEnv) : List Nat :=
  (List.range env.numLocals).map
    (fun i => if i < env.numParams then i else env.numParams + env.numLocals - 1 - i)

/-- One evaluated configuration: the oldIndex-to-newIndex vector, the
removed copy weight, and the maximal used color. -/
structure PickResult where
  indices : List Nat
  removed : Nat
  maxIndex : Nat
deriving DecidableEq, Repr

/-- Run the greedy coloring under one order and package the result
(`maxIndex` is `*std::max_element` over the indices). -/
def runOrder (env : CoalesceEnv) (order : List Nat) : PickResult :=
  let s := pickIndicesFromOrder env (fun i => order.getD i 0)
  let inds := (List.range env.numLocals).map s.indices
  ⟨inds, s.removed, inds.foldl max 0⟩

/-- The parameter-pinning priority adjustment: parameters get the maximal
32-bit priority. -/
def adjustedPriorities (env : CoalesceEnv) : Nat → Nat :=
  fun i => if i < env.numParams then 4294967295 else env.totalCopies i

/-- The forward configuration tried by `pickIndices`. -/
def forwardResult (env : CoalesceEnv) : PickResult :=
  runOrder env (adjustOrderByPriorities (makeIdentity env.numLocals) (adjustedPriorities env))

/-- The reverse configuration tried by `pickIndices`. -/
def reverseResult (env : CoalesceEnv) : PickResult :=
  runOrder env (adjustOrderByPriorities (reverseBase env) (adjustedPriorities env))

/-- Embedding of `CoalesceLocals::pickIndices`: degenerate cases for zero or
one local, otherwise the two configurations are compared preferring more
removed copies, then smaller maximal color. -/
def pickIndices (env : CoalesceEnv) : List Nat :=
  if env.numLocals = 0 then []
  else if env.numLocals = 1 then [0]
  else
    let fwd := forwardResult env
    let rev := reverseResult env
    if rev.removed > fwd.removed ∨
        (rev.removed = fwd.removed ∧ rev.maxIndex < fwd.maxIndex) then
      rev.indices
    else fwd.indices

/-- One configuration is at least as good as another in the order the source
uses: strictly more removed copies, or equally many and a maximal color at
most as large. -/
def atLeastAsGood (a b : PickResult) : Prop :=
  b.removed < a.removed ∨ (a.removed = b.removed ∧ a.maxIndex ≤ b.maxIndex)

/-- C7 amended: with at least two locals, `pickIndices` always evaluates
exactly the two deterministic priority-adjusted orders and the configuration
it returns is one of the two minimizing the pair `(−removedCopies,
maxColor)` — removed copies are the primary objective and the maximal color
only breaks ties — not the pair `(maxColor, −removedCopies)` stated in the
claim.  The final conjunct pins the returned configuration down completely:
whenever the forward (identity-order) configuration is at least as good in
this order — in particular whenever the two configurations score equally —
it is the one returned, so "the minimizing one" is well defined in every
case. -/
theorem pickIndices_prefers_copies (env : CoalesceEnv) (h2 : 2 ≤ env.numLocals) :
    (∃ chosen : PickResult,
      pickIndices env = chosen.indices ∧
      (chosen = forwardResult env ∨ chosen = reverseResult env) ∧
      atLeastAsGood chosen (forwardResult env) ∧
      atLeastAsGood chosen (reverseResult env)) ∧
    (atLeastAsGood (forwardResult env) (reverseResult env) →
      pickIndices env = (forwardResult env).indices) := by
  have h0 : env.numLocals ≠ 0 := by omega
  have h1 : env.numLocals ≠ 1 := by omega
  constructor
  · rw [pickIndices, if_neg h0, if_neg h1]
    by_cases hc : (reverseResult env).removed > (forwardResult env).removed ∨
        ((reverseResult env).removed = (forwardResult env).removed ∧
          (reverseResult env).maxIndex < (forwardResult env).maxIndex)
    · refine ⟨reverseResult env, by rw [if_pos hc], Or.inr rfl, ?_, ?_⟩
      · rcases hc with hc | ⟨hc1, hc2⟩
        · exact Or.inl hc
        · exact Or.inr ⟨hc1, Nat.le_of_lt hc2⟩
      · exact Or.inr ⟨rfl, Nat.le_refl _⟩
    · refine ⟨forwardResult env, by rw [if_neg hc], Or.inl rfl, Or.inr ⟨rfl, Nat.le_refl _⟩, ?_⟩
      rw [not_or] at hc
      rcases Nat.lt_or_ge (reverseResult env).removed (forwardResult env).removed with h | h
      · exact Or.inl h
      · have heq : (forwardResult env).removed = (reverseResult env).removed :=
          Nat.le_antisymm h (Nat.le_of_not_lt hc.1)
        refine Or.inr ⟨heq, ?_⟩
        rcases not_and_or.1 hc.2 with h' | h'
        · exact absurd heq.symm h'
        · exact Nat.le_of_not_lt h'
  · intro hfg
    rw [pickIndices, if_neg h0, if_neg h1]
    have hnc : ¬((reverseResult env).removed > (forwardResult env).removed ∨
        ((reverseResult env).removed = (forwardResult env).removed ∧
          (reverseResult env).maxIndex < (forwardResult env).maxIndex)) := by
      simp only [atLeastAsGood] at hfg
      omega
    rw [if_neg hnc]

/-- Interference edges of the C7 counterexample function (a path
`0 - 1 - 2 - 3`). -/
def c7Edges : List (Nat × Nat) := [(0, 1), (1, 2), (2, 3)]

/-- Copy weights of the C7 counterexample function. -/
def c7Copies : List ((Nat × Nat) × Nat) :=
  [((0, 1), 4), ((0, 2), 2), ((0, 3), 4), ((1, 2), 2), ((2, 3), 2)]

/-- The C7 counterexample environment: four same-typed locals, no
parameters, path-shaped interference and the copy weights above (total
copies 10, 6, 6, 6). -/
def c7Env : CoalesceEnv :=
  { numLocals := 4
    numParams := 0
    localType := fun _ => 0
    interferes := fun a b => c7Edges.contains (min a b, max a b)
    copies := fun a b =>
      (((c7Copies.find? (fun p => p.1 == (min a b, max a b))).map Prod.snd).getD 0)
    totalCopies := fun i => if i = 0 then 10 else 6 }

/-- C7 counterexample: on `c7Env` the reverse configuration removes more
copies (8 versus 2) but uses more colors (max color 2 versus 1); the code
returns the reverse configuration, so the returned configuration is not the
one minimizing the pair `(maxColor, −removedCopies)` — the forward one
minimizes that pair and is different. -/
theorem pickIndices_copies_over_colors :
    pickIndices c7Env = (reverseResult c7Env).indices ∧
    (forwardResult c7Env).removed = 2 ∧ (forwardResult c7Env).maxIndex = 1 ∧
    (reverseResult c7Env).removed = 8 ∧ (reverseResult c7Env).maxIndex = 2 ∧
    (forwardResult c7Env).maxIndex < (reverseResult c7Env).maxIndex ∧
    pickIndices c7Env ≠ (forwardResult c7Env).indices := by
  refine ⟨by decide, by decide, by decide, by decide, by decide, by decide, by decide⟩

/-- Witness for C7: the lexicographic-preference theorem applied to the
concrete environment. -/
theorem pickIndices_prefers_copies_witness :
    2 ≤ c7Env.numLocals ∧
    ((∃ chosen : PickResult,
      pickIndices c7Env = chosen.indices ∧
      (chosen = forwardResult c7Env ∨ chosen = reverseResult c7Env) ∧
      atLeastAsGood chosen (forwardResult c7Env) ∧
      atLeastAsGood chosen (reverseResult c7Env)) ∧
    (atLeastAsGood (forwardResult c7Env) (reverseResult c7Env) →
      pickIndices c7Env = (forwardResult c7Env).indices)) :=
  ⟨by decide, pickIndices_prefers_copies c7Env (by decide)⟩

/-! ## CoalesceLocalsWithLearning — Generator::computeFitness

The learning overlay scores an order by running the greedy coloring and
computing `fitness = numLocals − maxIndex`, adding `1 / (2·numLocals)` for
every index left in its original position, and finally
`fitness = 100·fitness + removedCopies`.  The C++ `double` arithmetic is
modelled exactly over ℚ (all quantities involved are small dyadic-free
rationals; the claim concerns the shape of the formula, not rounding). -/

/-- Number of positions of the order left at their original index. -/
def preservedCount (env : CoalesceEnv) (order : List Nat) : Nat :=
  ((List.range env.numLocals).filter (fun i => order.getD i 0 = i)).length

/-- Embedding of `Generator::computeFitness`. -/
def computeFitness (env : CoalesceEnv) (order : List Nat) : ℚ :=
  let s := pickIndicesFromOrder env (fun i => order.getD i 0)
  let inds := (List.range env.numLocals).map s.indices
  let maxIndex := inds.foldl max 0
  let base : ℚ := (env.numLocals : ℚ) - (maxIndex : ℚ)
  let fragment : ℚ := 1 / (2 * (env.numLocals : ℚ))
  100 * (base + (preservedCount env order : ℚ) * fragment) + (s.removed : ℚ)

/-- C8 amended: the fitness equals `100·(numLocals − maxColor) +
removedCopies + 50·preserved/numLocals`: the preserved-position bonus is
applied inside the factor of 100 (it is `100·preserved/(2·numLocals)`), so
while it never exceeds 50 — and hence never outweighs a one-color
difference — it can exceed differences in `removedCopies`, rather than
being a tertiary tie-breaker below them. -/
theorem computeFitness_formula (env : CoalesceEnv) (order : List Nat)
    (h : 1 ≤ env.numLocals) :
    computeFitness env order =
      100 * ((env.numLocals : ℚ) - ((runOrder env order).maxIndex : ℚ)) +
        ((runOrder env order).removed : ℚ) +
        50 * (preservedCount env order : ℚ) / (env.numLocals : ℚ) ∧
    0 ≤ 50 * (preservedCount env order : ℚ) / (env.numLocals : ℚ) ∧
    50 * (preservedCount env order : ℚ) / (env.numLocals : ℚ) ≤ 50 := by
  have hn : (env.numLocals : ℚ) ≠ 0 := by
    have : env.numLocals ≠ 0 := by omega
    exact_mod_cast this
  have hp : (preservedCount env order : ℚ) ≤ (env.numLocals : ℚ) := by
    have : preservedCount env order ≤ env.numLocals := by
      calc preservedCount env order
          ≤ (List.range env.numLocals).length := List.length_filter_le _ _
        _ = env.numLocals := List.length_range env.numLocals
    exact_mod_cast this
  have hnpos : (0 : ℚ) < (env.numLocals : ℚ) := by
    exact_mod_cast Nat.lt_of_lt_of_le Nat.zero_lt_one h
  refine ⟨?_, ?_, ?_⟩
  · rw [computeFitness, runOrder]
    field_simp
    ring
  · positivity
  · rw [div_le_iff₀ hnpos]
    nlinarith [hp]

/-- The C8 counterexample environment: two same-typed locals, no
interference, no copies. -/
def c8Env : CoalesceEnv :=
  ⟨2, 0, fun _ => 0, fun _ _ => false, fun _ _ => 0, fun _ => 0⟩

/-- C8 counterexample: on `c8Env` with the identity order both locals
coalesce (max color 0, no copies removed, both positions preserved), and the
fitness is 250 — it exceeds `100·(numLocals − maxColor) + removedCopies =
200` by 50, so the bonus term is not below the unit weight of
`removedCopies` and is not added outside the factor of 100. -/
theorem computeFitness_bonus_not_tertiary :
    computeFitness c8Env [0, 1] = 250 ∧
    (runOrder c8Env [0, 1]).maxIndex = 0 ∧
    (runOrder c8Env [0, 1]).removed = 0 ∧
    preservedCount c8Env [0, 1] = 2 ∧
    computeFitness c8Env [0, 1] - (100 * ((2 : ℚ) - 0) + 0) = 50 ∧
    ¬(computeFitness c8Env [0, 1] - (100 * ((2 : ℚ) - 0) + 0) < 1) := by
  have hpres : preservedCount c8Env [0, 1] = 2 := by decide
  have hval : computeFitness c8Env [0, 1] = 250 := by
    rw [computeFitness]
    rw [show ((List.range c8Env.numLocals).map
        (pickIndicesFromOrder c8Env fun i => [0, 1].getD i 0).indices).foldl max 0 = 0
      from by decide]
    rw [show (pickIndicesFromOrder c8Env fun i => [0, 1].getD i 0).removed = 0
      from by decide]
    rw [hpres, show c8Env.numLocals = 2 from rfl]
    norm_num
  refine ⟨hval, by decide, by decide, hpres, by rw [hval]; norm_num, by rw [hval]; norm_num⟩

/-- Witness for C8: the fitness formula applied to the concrete environment
and the identity order. -/
theorem computeFitness_formula_witness :
    1 ≤ c8Env.numLocals ∧
    (computeFitness c8Env [0, 1] =
      100 * ((c8Env.numLocals : ℚ) - ((runOrder c8Env [0, 1]).maxIndex : ℚ)) +
        ((runOrder c8Env [0, 1]).removed : ℚ) +
        50 * (preservedCount c8Env [0, 1] : ℚ) / (c8Env.numLocals : ℚ) ∧
    0 ≤ 50 * (preservedCount c8Env [0, 1] : ℚ) / (c8Env.numLocals : ℚ) ∧
    50 * (preservedCount c8Env [0, 1] : ℚ) / (c8Env.numLocals : ℚ) ≤ 50) :=
  ⟨by decide, computeFitness_formula c8Env [0, 1] (by decide)⟩

end Wasm
